import Mathlib

/-!
Verification of the split-virtqueue engine and tx/rx queue pair of a
user-space virtio-net driver (net/virtio.cc).

The development shallowly embeds the driver's state and operations:

* `VDesc`, `Vring` — the descriptor table, the driver-local cursors
  (`_avail._head`, `_used._tail`, `_avail_added_since_kick`), the free-list
  head/tail (`_free_head`/`_free_last`, the C `int` with `-1` sentinel is
  rendered as `Option Nat`), the driver-written shared words (`avail.flags`,
  `avail.idx`, `used_event`) and the completions table (`outstanding` is the
  set of chain-head indices holding a not-yet-fired completion).
* Host-written shared memory (`avail_event`, `used.flags`, `used.idx`, the
  used elements) is passed to each operation as explicit inputs, since the
  host mutates it concurrently.
* All 16-bit shared counters are modelled as `Nat` reduced `% 65536`.
* Runtime invariant violations (allocating from an empty free list, firing a
  completion that is not outstanding, a cyclic descriptor walk) abort the
  process in the source; they are modelled by returning `none`.
-/

namespace VirtioNet

/-- Descriptor as laid out in the shared descriptor table: paddr, len,
flags `{has_next, writeable, indirect}` and the `next` link (`vring::desc`). -/
structure VDesc where
  paddr : Nat
  len : Nat
  hasNext : Bool
  writeable : Bool
  indirect : Bool
  next : Nat
deriving DecidableEq, Repr

/-- One buffer of a chain handed to `vring::post` (`vring::buffer`). -/
structure VBuffer where
  addr : Nat
  len : Nat
  writeable : Bool
deriving DecidableEq, Repr

/-- One used-ring element written by the host (`vring::used_elem`). -/
structure UsedElem where
  id : Nat
  len : Nat
deriving DecidableEq, Repr

/-- State of one `vring` instance.  Shared words that only the driver writes
are part of the state; host-written words are operation inputs. -/
structure Vring where
  size : Nat
  eventIndex : Bool
  pollMode : Bool
  descs : Nat → VDesc
  availRing : Nat → Nat
  availHead : Nat
  availIdx : Nat
  availFlags : Nat
  usedEvent : Nat
  availAddedSinceKick : Nat
  usedTail : Nat
  freeHead : Option Nat
  freeLast : Option Nat
  batch : List Nat
  outstanding : List Nat
  notified : Nat
  availableDescriptors : Nat

/-- Pointwise update of the descriptor table. -/
def writeDesc (f : Nat → VDesc) (i : Nat) (d : VDesc) : Nat → VDesc :=
  fun j => if j = i then d else f j

/-- Modelled from the spec: `VRING_AVAIL_F_NO_INTERRUPT` bit of `avail.flags`
(virtio-interface.hh is not part of the sources; the standard value is 1). -/
def VRING_AVAIL_F_NO_INTERRUPT : Nat := 1

/-- Modelled from the spec: `VRING_USED_F_NO_NOTIFY` bit of `used.flags`
(virtio-interface.hh is not part of the sources; the standard value is 1). -/
def VRING_USED_F_NO_NOTIFY : Nat := 1

/-- Construction state: zero-initialised storage, empty free list, cursors at
zero (`vring::vring` before `setup()` runs). -/
def vringBlank (size : Nat) (eventIndex pollMode : Bool) : Vring :=
  { size := size
    eventIndex := eventIndex
    pollMode := pollMode
    descs := fun _ => { paddr := 0, len := 0, hasNext := false, writeable := false, indirect := false, next := 0 }
    availRing := fun _ => 0
    availHead := 0
    availIdx := 0
    availFlags := 0
    usedEvent := 0
    availAddedSinceKick := 0
    usedTail := 0
    freeHead := none
    freeLast := none
    batch := []
    outstanding := []
    notified := 0
    availableDescriptors := 0 }

/-- `vring::setup`: link descriptor `i` to `i+1` for every `i < size`, set
`_free_head = 0`, `_free_last = size - 1` (for `size = 0` the C expression
`_config.size - 1` is `-1`, i.e. `none`), and signal `size` permits on the
available-descriptors semaphore. -/
def vringSetup (s : Vring) : Vring :=
  { s with
    descs := fun i => if i < s.size then { s.descs i with next := i + 1 } else s.descs i
    freeHead := some 0
    freeLast := if s.size = 0 then none else some (s.size - 1)
    availableDescriptors := s.availableDescriptors + s.size }

/-- The constructor `vring::vring(conf, poll_mode)`: blank state then `setup()`. -/
def vringInit (size : Nat) (eventIndex pollMode : Bool) : Vring :=
  vringSetup (vringBlank size eventIndex pollMode)

/-- `vring::allocate_desc`: pop the head of the free list.
`assert(_free_head != -1)` is modelled by `none`. -/
def allocateDesc (s : Vring) : Option (Nat × Vring) :=
  match s.freeHead with
  | none => none
  | some d =>
    if s.freeLast = some d then
      some (d, { s with freeHead := none, freeLast := none })
    else
      some (d, { s with freeHead := some ((s.descs d).next) })

/-- Loop body of `vring::post` after the first buffer: allocate a descriptor,
link the previous one to it (`prev->_flags.has_next = true; prev->_next = idx`)
and fill the new descriptor (`d._flags = {}` clears the flags but leaves the
stale `_next` field untouched). -/
def postChainGo : Vring → List VBuffer → Nat → Option Vring
  | s, [], _ => some s
  | s, b :: rest, prev =>
    match allocateDesc s with
    | none => none
    | some (idx, s1) =>
      let s2 := { s1 with descs := writeDesc s1.descs prev ({ s1.descs prev with hasNext := true, next := idx }) }
      let d : VDesc :=
        { paddr := b.addr, len := b.len, hasNext := false, writeable := b.writeable,
          indirect := false, next := (s2.descs idx).next }
      let s3 := { s2 with descs := writeDesc s2.descs idx d }
      postChainGo s3 rest idx

/-- Build one descriptor chain in `vring::post`.  The first buffer's
predecessor is the zero-initialised local `pseudo_head`, so an empty chain
yields `desc_head = 0` without allocating anything (the callers never post an
empty chain). -/
def postChain (s : Vring) (bufs : List VBuffer) : Option (Nat × Vring) :=
  match bufs with
  | [] => some (0, s)
  | b :: rest =>
    match allocateDesc s with
    | none => none
    | some (idx, s1) =>
      let d : VDesc :=
        { paddr := b.addr, len := b.len, hasNext := false, writeable := b.writeable,
          indirect := false, next := (s1.descs idx).next }
      let s2 := { s1 with descs := writeDesc s1.descs idx d }
      match postChainGo s2 rest idx with
      | none => none
      | some s3 => some (idx, s3)

/-- One iteration of the `std::for_each` in `vring::post`: build the chain,
store the completion at the chain head, publish the head either directly into
`avail.ring[masked(_avail._head++)]` (interrupt mode) or into `_batch`
(poll mode), and increment `_avail_added_since_kick`. -/
def postOne (s : Vring) (bufs : List VBuffer) : Option Vring :=
  match postChain s bufs with
  | none => none
  | some (head, s1) =>
    let s2 := { s1 with outstanding := head :: s1.outstanding }
    let s3 :=
      if s2.pollMode = false then
        { s2 with
          availRing := fun j => if j = (s2.availHead &&& (s2.size - 1)) then head else s2.availRing j
          availHead := (s2.availHead + 1) % 65536 }
      else
        { s2 with batch := s2.batch ++ [head] }
    some { s3 with availAddedSinceKick := (s3.availAddedSinceKick + 1) % 65536 }

/-- The whole `std::for_each(begin, end, ...)` loop of `vring::post`. -/
def postMany : Vring → List (List VBuffer) → Option Vring
  | s, [] => some s
  | s, c :: cs =>
    match postOne s c with
    | none => none
    | some s1 => postMany s1 cs

/-- `vring::kick`: seq-cst fence, then with `EVENT_IDX` compare
`(uint16_t)(avail_idx - avail_event - 1) < _avail_added_since_kick`, otherwise
return early when the host set `NO_NOTIFY`; notify when the condition holds or
`_avail_added_since_kick >= (uint16_t)(~0) / 2` (= 32767), and reset the
counter on notify.  `hostAvailEvent` and `hostUsedFlags` are the host-written
words loaded after the fence. -/
def vringKick (s : Vring) (hostAvailEvent hostUsedFlags : Nat) : Vring :=
  if s.eventIndex then
    let availIdx := s.availIdx
    let availEvent := hostAvailEvent % 65536
    let needKick := (availIdx + 2 * 65536 - availEvent - 1) % 65536 < s.availAddedSinceKick
    if needKick ∨ 32767 ≤ s.availAddedSinceKick then
      { s with notified := s.notified + 1, availAddedSinceKick := 0 }
    else s
  else
    if hostUsedFlags &&& VRING_USED_F_NO_NOTIFY ≠ 0 then s
    else { s with notified := s.notified + 1, availAddedSinceKick := 0 }

/-- `vring::disable_interrupts`: in interrupt mode without event-index, store
`VRING_AVAIL_F_NO_INTERRUPT` into `avail.flags`. -/
def disableInterrupts (s : Vring) : Vring :=
  if s.pollMode = false ∧ s.eventIndex = false then
    { s with availFlags := VRING_AVAIL_F_NO_INTERRUPT }
  else s

/-- The arming store of `vring::enable_interrupts`: clear `avail.flags`
without event-index, otherwise store the current `_used._tail` into
`used_event`. -/
def armInterrupts (s : Vring) : Vring :=
  if s.eventIndex = false then { s with availFlags := 0 }
  else { s with usedEvent := s.usedTail }

/-- Walk of the freed chain in `vring::do_complete`: follow `next` while
`has_next` is set and return the index of the last descriptor.  Fuel bounds
the walk; exhaustion models a corrupt (cyclic) table. -/
def chainLastGo (descs : Nat → VDesc) : Nat → Nat → Option Nat
  | _, 0 => none
  | id, fuel + 1 =>
    if (descs id).hasNext = false then some id
    else chainLastGo descs (descs id).next fuel

/-- One iteration of the drain loop in `vring::do_complete`: read the used
element at `masked(_used._tail++)`, fire its completion (the driver guarantees
at most one outstanding completion per chain head, so a used id that is not
outstanding is a protocol violation, modelled as `none`), splice the whole
chain onto the tail of the free list, and advance `_free_last` to the chain's
last descriptor. -/
def completeOne (s : Vring) (e : UsedElem) : Option Vring :=
  if e.id ∈ s.outstanding then
    let s1 := { s with
      usedTail := (s.usedTail + 1) % 65536
      outstanding := s.outstanding.erase e.id }
    let s2 :=
      match s1.freeLast with
      | some fl => { s1 with descs := writeDesc s1.descs fl ({ s1.descs fl with next := e.id }) }
      | none => { s1 with freeHead := some e.id }
    match chainLastGo s2.descs e.id s2.size with
    | some last => some { s2 with freeLast := some last }
    | none => none
  else none

/-- The inner `while (used_head != _used._tail)` loop of `vring::do_complete`,
draining the host-written used elements in order. -/
def drainN : Vring → List UsedElem → Option Vring
  | s, [] => some s
  | s, e :: rest =>
    match completeOne s e with
    | none => none
    | some s1 => drainN s1 rest

/-- Events of one `vring::do_complete` run, in program order: acquire/relaxed
loads of `used.idx`, drains of used elements, the arming store of
`enable_interrupts` and its seq-cst fence.  `do_complete` never waits on the
notifier (the wait lives in `vring::complete`), so no wait event exists and
`notifyWait` is listed to state that fact. -/
inductive VEv where
  | load (v : Nat)
  | drain (id : Nat)
  | armFlags
  | armEvent (v : Nat)
  | fence
  | notifyWait
deriving DecidableEq, Repr

/-- `vring::do_complete`.  The host is modelled by `loads` (the successive
values an atomic load of `used.idx` observes) and `elems` (the used elements
the host wrote, consumed in ring order).  Each iteration disables interrupts,
loads `used.idx`, drains `(used_head - _used._tail) mod 2^16` elements, then
`enable_interrupts` arms, fences, re-loads `used.idx` and loops when the
re-load differs from `_used._tail`.  Fuel exhaustion or a schedule that ends
mid-loop yields `none`. -/
def doCompleteAux : Nat → Vring → List Nat → List UsedElem → Option (Vring × List VEv)
  | 0, _, _, _ => none
  | fuel + 1, s, loads, elems =>
    let sD := disableInterrupts s
    match loads with
    | [] => none
    | v0 :: loads1 =>
      let v := v0 % 65536
      let n := (v + 65536 - sD.usedTail) % 65536
      if n ≤ elems.length then
        match drainN sD (elems.take n) with
        | none => none
        | some s2 =>
          let tr0 := VEv.load v :: (elems.take n).map (fun e => VEv.drain e.id)
          if s2.pollMode then some (s2, tr0)
          else
            let s3 := armInterrupts s2
            match loads1 with
            | [] => none
            | w0 :: loads2 =>
              let w := w0 % 65536
              let trE := [if s3.eventIndex then VEv.armEvent s3.usedTail else VEv.armFlags,
                          VEv.fence, VEv.load w]
              if w = s3.usedTail then some (s3, tr0 ++ trE)
              else
                match doCompleteAux fuel s3 loads2 (elems.drop n) with
                | none => none
                | some (s4, tr4) => some (s4, tr0 ++ trE ++ tr4)
      else none

/-- Entry point of `vring::do_complete` with the host schedule. -/
def doComplete (s : Vring) (loads : List Nat) (elems : List UsedElem) (fuel : Nat) :
    Option (Vring × List VEv) :=
  doCompleteAux fuel s loads elems

/-- `vring::flush_batch`: copy the batched heads into `avail.ring`, advance
`_avail._head`, publish `avail.idx` with release ordering, clear the batch and
run the kick policy. -/
def flushBatch (s : Vring) (hostAvailEvent hostUsedFlags : Nat) : Vring :=
  if s.batch = [] then s
  else
    let s1 := s.batch.foldl
      (fun t h =>
        { t with
          availRing := fun j => if j = (t.availHead &&& (t.size - 1)) then h else t.availRing j
          availHead := (t.availHead + 1) % 65536 })
      s
    vringKick { s1 with batch := [], availIdx := s1.availHead } hostAvailEvent hostUsedFlags

/-- `vring::post` after the loop: in interrupt mode publish `avail.idx`
(release store), kick and run `do_complete`; in poll mode flush the batch once
it holds at least 16 heads. -/
def vringPost (s : Vring) (chains : List (List VBuffer)) (hostAvailEvent hostUsedFlags : Nat)
    (loads : List Nat) (elems : List UsedElem) (fuel : Nat) : Option Vring :=
  match postMany s chains with
  | none => none
  | some s1 =>
    if s1.pollMode = false then
      let s2 := { s1 with availIdx := s1.availHead }
      let s3 := vringKick s2 hostAvailEvent hostUsedFlags
      match doComplete s3 loads elems fuel with
      | none => none
      | some (s4, _) => some s4
    else if 16 ≤ s1.batch.length then
      some (flushBatch s1 hostAvailEvent hostUsedFlags)
    else some s1

/-- States reachable by the vring operations: construction (`vring::vring`
with a power-of-two ring size, as the configuration requires), `vring::post`
with the caller contract that no chain is empty, `vring::do_complete` (run
from `complete()` or the poll-mode poller) and `vring::flush_batch` (run from
the poll-mode poller).  `allocate_desc` is only ever invoked from inside
`post`. -/
inductive Reachable : Vring → Prop where
  | init (k : Nat) (ei pm : Bool) (hk : k ≤ 15) : Reachable (vringInit (2 ^ k) ei pm)
  | post {s s' : Vring} (chains : List (List VBuffer)) (hAE hUF : Nat)
      (loads : List Nat) (elems : List UsedElem) (fuel : Nat) :
      Reachable s → (∀ c ∈ chains, c ≠ ([] : List VBuffer)) →
      vringPost s chains hAE hUF loads elems fuel = some s' → Reachable s'
  | complete {s s' : Vring} (loads : List Nat) (elems : List UsedElem) (fuel : Nat)
      (tr : List VEv) :
      Reachable s → doComplete s loads elems fuel = some (s', tr) → Reachable s'
  | flush {s : Vring} (hAE hUF : Nat) : Reachable s → Reachable (flushBatch s hAE hUF)

/-- Traversal of the free list: follow `next` from `cur` until `_free_last`
is reached (the `next` field of the last free descriptor is stale and never
read).  Fuel exhaustion models a corrupt list. -/
def freeSeqGo (descs : Nat → VDesc) (last : Nat) : Nat → Nat → Option (List Nat)
  | _, 0 => none
  | cur, fuel + 1 =>
    if cur = last then some [cur]
    else
      match freeSeqGo descs last (descs cur).next fuel with
      | some l => some (cur :: l)
      | none => none

/-- The descriptor indices currently on the free list, in list order. -/
def freeSeq (s : Vring) : Option (List Nat) :=
  match s.freeHead, s.freeLast with
  | none, none => some []
  | some h, some l => freeSeqGo s.descs l h s.size
  | _, _ => none

/-- Traversal of one descriptor chain: follow `next` while `has_next` is set. -/
def chainSeqGo (descs : Nat → VDesc) : Nat → Nat → Option (List Nat)
  | _, 0 => none
  | id, fuel + 1 =>
    if (descs id).hasNext = false then some [id]
    else
      match chainSeqGo descs (descs id).next fuel with
      | some l => some (id :: l)
      | none => none

/-- The chains of all outstanding completions, in table order. -/
def chainsSeq (descs : Nat → VDesc) (fuel : Nat) : List Nat → Option (List (List Nat))
  | [] => some []
  | id :: rest =>
    match chainSeqGo descs id fuel, chainsSeq descs fuel rest with
    | some c, some cs => some (c :: cs)
    | _, _ => none

/-- A list of descriptor indices linked through the table: every element but
the last has `has_next` set and `next` pointing at its successor, and the
last has `has_next` clear. -/
def IsChain (descs : Nat → VDesc) : List Nat → Prop
  | [] => True
  | [i] => (descs i).hasNext = false
  | i :: j :: rest => (descs i).hasNext = true ∧ (descs i).next = j ∧ IsChain descs (j :: rest)

/-- Well-formedness of a vring state: power-of-two size, in-range 16-bit
cursors, and the free list together with the outstanding chains forming a
partition of all `size` descriptor indices. -/
def VringWF (s : Vring) : Prop :=
  (∃ k, k ≤ 15 ∧ s.size = 2 ^ k) ∧
  s.availHead < 65536 ∧ s.usedTail < 65536 ∧ s.availIdx < 65536 ∧
  s.availAddedSinceKick < 65536 ∧
  ∃ fl cs, freeSeq s = some fl ∧ chainsSeq s.descs s.size s.outstanding = some cs ∧
    (fl ++ cs.flatten).Perm (List.range s.size)

/-- Equality of all control fields of two vring states, i.e. everything
except the descriptor table, the free-list head/tail and the completions
table; the descriptor allocator only changes the latter. -/
def SameRingCtl (a b : Vring) : Prop :=
  a.size = b.size ∧ a.eventIndex = b.eventIndex ∧ a.pollMode = b.pollMode ∧
  a.availHead = b.availHead ∧ a.availIdx = b.availIdx ∧ a.availRing = b.availRing ∧
  a.availFlags = b.availFlags ∧ a.usedEvent = b.usedEvent ∧
  a.availAddedSinceKick = b.availAddedSinceKick ∧ a.usedTail = b.usedTail ∧
  a.batch = b.batch ∧ a.outstanding = b.outstanding ∧ a.notified = b.notified ∧
  a.availableDescriptors = b.availableDescriptors

/-- Equality of all fields except `avail.flags`, `used_event`, `_notified`
and `_avail_added_since_kick`: the notification-control operations (`kick`,
`disable_interrupts`, `enable_interrupts`) touch nothing else. -/
def SameDataFields (a b : Vring) : Prop :=
  a.descs = b.descs ∧ a.availRing = b.availRing ∧ a.availHead = b.availHead ∧
  a.availIdx = b.availIdx ∧ a.size = b.size ∧ a.pollMode = b.pollMode ∧
  a.eventIndex = b.eventIndex ∧ a.usedTail = b.usedTail ∧
  a.freeHead = b.freeHead ∧ a.freeLast = b.freeLast ∧
  a.outstanding = b.outstanding ∧ a.availableDescriptors = b.availableDescriptors ∧
  a.batch = b.batch

/-- Modelled from the spec: an Ethernet header (`sizeof(eth_hdr)` from
net/ethernet.hh, not part of the sources) is 14 bytes. -/
def ethHdrLen : Nat := 14

/-- Modelled from the spec: the IANA protocol numbers behind
`ip_protocol_num::tcp` and `ip_protocol_num::udp` (ip.hh is not part of the
sources); only their distinctness matters here. -/
def ipProtocolTcp : Nat := 6

/-- Modelled from the spec: see `ipProtocolTcp`. -/
def ipProtocolUdp : Nat := 17

/-- `net_hdr::gso_none`. -/
def gso_none : Nat := 0

/-- `net_hdr::gso_tcpv4`. -/
def gso_tcpv4 : Nat := 1

/-- `net_hdr::gso_udp`. -/
def gso_udp : Nat := 3

/-- The device hw_features consulted by `qp::txq::post` (an external
structure; only the fields the driver reads are modelled). -/
structure HwFeatures where
  txCsumL4Offload : Bool
  rxCsumOffload : Bool
  txTso : Bool
  txUfo : Bool
  mtu : Nat
deriving DecidableEq, Repr

/-- The packet offload metadata consulted by `qp::txq::post` (an external
structure; `ip_hdr_len`, `tcp_hdr_len` and `udp_hdr_len` are small header
byte counts). -/
structure OffloadInfo where
  protocol : Nat
  needsCsum : Bool
  ipHdrLen : Nat
  tcpHdrLen : Nat
  udpHdrLen : Nat
deriving DecidableEq, Repr

/-- The virtio-net header (`qp::net_hdr`, with the mergeable `num_buffers`
word of `qp::net_hdr_mrg`); all multi-byte fields are 16-bit. -/
structure NetHdr where
  needsCsum : Bool
  gsoType : Nat
  hdrLen : Nat
  gsoSize : Nat
  csumStart : Nat
  csumOffset : Nat
  numBuffers : Nat
deriving DecidableEq, Repr

/-- The header-building prefix of `qp::txq::post`: starting from a
zero-initialised `net_hdr_mrg`, handle L4 checksum offload and TSO/UFO.  The
whole block is guarded by `hw_features().tx_csum_l4_offload`; inside, the TCP
branch sets `csum_start/csum_offset` when the packet needs a checksum and the
GSO fields when `tx_tso` is on and the packet exceeds `mtu + eth_hdr_len`
(UDP symmetric with `tx_ufo`).  16-bit stores truncate mod 2^16; the
`gso_size` subtraction is C `int` arithmetic cast to `uint16_t`. -/
def buildVNetHeader (hw : HwFeatures) (oi : OffloadInfo) (pLen : Nat) : NetHdr :=
  let vhdr : NetHdr :=
    { needsCsum := false, gsoType := gso_none, hdrLen := 0, gsoSize := 0,
      csumStart := 0, csumOffset := 0, numBuffers := 0 }
  if hw.txCsumL4Offload then
    if oi.protocol = ipProtocolTcp then
      let vhdr1 :=
        if oi.needsCsum then
          { vhdr with needsCsum := true, csumStart := (ethHdrLen + oi.ipHdrLen) % 65536,
                      csumOffset := 16 }
        else vhdr
      if hw.txTso = true ∧ hw.mtu + ethHdrLen < pLen then
        { vhdr1 with gsoType := gso_tcpv4,
                     hdrLen := (ethHdrLen + oi.ipHdrLen + oi.tcpHdrLen) % 65536,
                     gsoSize := (hw.mtu + 2 * 65536 - oi.ipHdrLen - oi.tcpHdrLen) % 65536 }
      else vhdr1
    else if oi.protocol = ipProtocolUdp then
      let vhdr1 :=
        if oi.needsCsum then
          { vhdr with needsCsum := true, csumStart := (ethHdrLen + oi.ipHdrLen) % 65536,
                      csumOffset := 6 }
        else vhdr
      if hw.txUfo = true ∧ hw.mtu + ethHdrLen < pLen then
        { vhdr1 with gsoType := gso_udp,
                     hdrLen := (ethHdrLen + oi.ipHdrLen + oi.udpHdrLen) % 65536,
                     gsoSize := (hw.mtu + 2 * 65536 - oi.ipHdrLen - oi.udpHdrLen) % 65536 }
      else vhdr1
    else vhdr
  else vhdr

/-- One packet fragment (base virtual address and size), as handed to
`qp::txq::post`. -/
structure NetFragment where
  base : Nat
  size : Nat
deriving DecidableEq, Repr

/-- The `fragment_to_buffer` lambda of `qp::txq::post`: `virt_to_phys` is the
identity for the vhost transport, and every TX buffer is read-only. -/
def fragmentToBuffer (f : NetFragment) : VBuffer :=
  { addr := f.base, len := f.size, writeable := false }

/-- The single buffer chain built by `qp::txq::post`: the virtio-net header
fragment prepended to the packet's fragments. -/
def txqChain (headerAddr headerLen : Nat) (frags : List NetFragment) : List VBuffer :=
  ({ base := headerAddr, size := headerLen } :: frags).map fragmentToBuffer

/-- The ring part of `qp::txq::post`: wait for `nr_frags` permits on the
available-descriptors semaphore (returning `none` models the suspension when
too few are available), then post the single chain. -/
def txqPost (s : Vring) (headerAddr headerLen : Nat) (frags : List NetFragment)
    (hAE hUF : Nat) (loads : List Nat) (elems : List UsedElem) (fuel : Nat) : Option Vring :=
  let nrFrags := frags.length + 1
  if nrFrags ≤ s.availableDescriptors then
    vringPost { s with availableDescriptors := s.availableDescriptors - nrFrags }
      [txqChain headerAddr headerLen frags] hAE hUF loads elems fuel
  else none

/-- `qp::txq::post` while the host stays idle: the trailing `do_complete`
observes `used.idx` still equal to `_used._tail` twice and drains nothing. -/
def txqPostIdle (s : Vring) (headerAddr headerLen : Nat) (frags : List NetFragment) : Option Vring :=
  txqPost s headerAddr headerLen frags 0 0 [s.usedTail, s.usedTail] [] 1

/-- Successive `qp::txq::post` calls with an idle host, in call order. -/
def txqPostManyIdle : Vring → List (Nat × Nat × List NetFragment) → Option Vring
  | s, [] => some s
  | s, p :: ps =>
    match txqPostIdle s p.1 p.2.1 p.2.2 with
    | none => none
    | some s1 => txqPostManyIdle s1 ps

/-- One fragment recorded by the rxq reassembly state machine: backing
buffer, offset into it, and byte length (a C `size_t`). -/
structure RxFrag where
  buf : Nat
  off : Nat
  len : Nat
deriving DecidableEq, Repr

/-- A packet delivered to `l2receive`: its fragments and the buffers its
deleter frees (each exactly once) when the packet is dropped. -/
structure RxPacket where
  frags : List RxFrag
  freedBuffers : List Nat
deriving DecidableEq, Repr

/-- State of `qp::rxq` reassembly plus its observable outputs: packets
delivered to `l2receive` and permits returned to the descriptor semaphore. -/
structure RxqState where
  headerLen : Nat
  remainingBuffers : Nat
  fragments : List RxFrag
  deleters : List Nat
  delivered : List RxPacket
  signalled : Nat
deriving DecidableEq, Repr

/-- The tail of the rxq completion closure: append the fragment and its
buffer, decrement `_remaining_buffers`, and on the last buffer build the
packet from the accumulated fragments (its deleter frees every backing
buffer), deliver it to `l2receive` and signal `_fragments.size()` permits. -/
def rxqAppend (s : RxqState) (frag : RxFrag) (buf : Nat) : RxqState :=
  let s1 := { s with
    fragments := s.fragments ++ [frag]
    deleters := s.deleters ++ [buf]
    remainingBuffers := s.remainingBuffers - 1 }
  if s1.remainingBuffers = 0 then
    { s1 with
      delivered := s1.delivered ++ [{ frags := s1.fragments, freedBuffers := s1.deleters }]
      signalled := s1.signalled + s1.fragments.length }
  else s1

/-- The rxq completion closure (`qp::rxq::prepare_buffers`): when
`_remaining_buffers == 0` the buffer starts a new packet, so read
`num_buffers` from its mergeable header (`assert(num_buffers >= 1)` modelled
as `none`), clear the accumulators and record the first fragment
`{buf + header_len, len - header_len}` — the length is the unguarded C
`size_t` subtraction, i.e. `(len + 2^64 - header_len) % 2^64`; otherwise
append `{buf, len}` as-is. -/
def rxqComplete (s : RxqState) (buf len hdrNumBuffers : Nat) : Option RxqState :=
  if s.remainingBuffers = 0 then
    if hdrNumBuffers = 0 then none
    else
      let s1 := { s with remainingBuffers := hdrNumBuffers, fragments := [], deleters := [] }
      some (rxqAppend s1
        { buf := buf, off := s.headerLen, len := (len + 2 ^ 64 - s.headerLen) % 2 ^ 64 } buf)
  else
    some (rxqAppend s { buf := buf, off := 0, len := len } buf)

/-- One host completion event for an RX buffer: the buffer, the host-reported
written length, and the `num_buffers` field the host wrote into the buffer's
mergeable header (only read when the buffer starts a packet). -/
structure RxEvent where
  buf : Nat
  len : Nat
  hdrNumBuffers : Nat
deriving DecidableEq, Repr

/-- A sequence of RX buffer completions, in used-ring order. -/
def rxqRun : RxqState → List RxEvent → Option RxqState
  | s, [] => some s
  | s, e :: rest =>
    match rxqComplete s e.buf e.len e.hdrNumBuffers with
    | none => none
    | some s1 => rxqRun s1 rest

/-- Modelled from the spec: `align_up(v, 4096)` (core/align.hh is not part of
the sources) rounds `v` up to the next multiple of the page size. -/
def align_up (v a : Nat) : Nat := (v + a - 1) / a * a

/-- `qp::vring_storage_size`: `3 * 4096 + ring_size * (16 + 2 + 8)`. -/
def vring_storage_size (ring_size : Nat) : Nat := 3 * 4096 + ring_size * (16 + 2 + 8)

/-- `virtio_buffer`: allocate page-aligned storage and `bzero` it; modelled
as the all-zero byte list of the requested size. -/
def virtio_buffer (size : Nat) : List Nat := List.replicate size 0

/-- Region offsets within one queue's storage block (the `descs` pointer is
the block start). -/
structure VringLayout where
  descsOff : Nat
  availOff : Nat
  usedOff : Nat
deriving DecidableEq, Repr

/-- `qp::common_config`: `avail = descs + 16 * size` and
`used = align_up(avail + 2 * size + 6, 4096)`, as offsets from the block. -/
def common_config_offsets (size : Nat) : VringLayout :=
  { descsOff := 0
    availOff := 16 * size
    usedOff := align_up (16 * size + 2 * size + 6) 4096 }

/-- The option values "on"/"off" of the driver's string options. -/
inductive OnOff where
  | on
  | off
deriving DecidableEq, Repr

/-- A `boost::program_options::variables_map` restricted to the fields
`config_ring_size` reads: the entry count and stored value for `event-index`
and `virtio-ring-size`. -/
structure VariablesMap where
  eventIndexCount : Nat
  eventIndexValue : OnOff
  virtioRingSizeCount : Nat
  virtioRingSize : Nat
deriving DecidableEq, Repr

/-- User-supplied command-line values (absent means the default applies). -/
structure UserOptions where
  eventIndex : Option OnOff
  virtioRingSize : Option Nat
deriving DecidableEq, Repr

/-- A variables_map produced from `get_virtio_net_options_description`: every
option there carries a `default_value` (`event-index` defaults to on,
`virtio-ring-size` to 256), and boost stores defaulted options in the map, so
each entry is present with count 1. -/
def optionsMapOf (u : UserOptions) : VariablesMap :=
  { eventIndexCount := 1
    eventIndexValue := u.eventIndex.getD OnOff.on
    virtioRingSizeCount := 1
    virtioRingSize := u.virtioRingSize.getD 256 }

/-- `config_ring_size`: return the `virtio-ring-size` value when the map has
an `event-index` entry, else 256. -/
def config_ring_size (m : VariablesMap) : Nat :=
  if m.eventIndexCount ≠ 0 then m.virtioRingSize else 256

/-- The ring sizes `qp_vhost::qp_vhost` passes to the `qp` constructor:
`(rx_ring_size, tx_ring_size) = (config_ring_size(opts), config_ring_size(opts))`. -/
def qp_vhost_ring_sizes (m : VariablesMap) : Nat × Nat :=
  (config_ring_size m, config_ring_size m)

/-- Helper: free-list traversal is monotone in fuel. -/
theorem freeSeqGo_mono (descs : Nat → VDesc) (last : Nat) :
    ∀ fuel1 : Nat, ∀ {fuel2 cur : Nat}, ∀ {l : List Nat}, fuel1 ≤ fuel2 →
      freeSeqGo descs last cur fuel1 = some l → freeSeqGo descs last cur fuel2 = some l := by
  intro fuel1
  induction fuel1 with
  | zero =>
    intro fuel2 cur l _ h
    exact absurd h (by simp [freeSeqGo])
  | succ f ih =>
    intro fuel2 cur l hle h
    obtain ⟨f2, rfl⟩ : ∃ f2, fuel2 = f2 + 1 := ⟨fuel2 - 1, by omega⟩
    simp only [freeSeqGo] at h ⊢
    by_cases hc : cur = last
    · rw [if_pos hc] at h ⊢; exact h
    · rw [if_neg hc] at h ⊢
      cases hrec : freeSeqGo descs last (descs cur).next f with
      | none => rw [hrec] at h; exact absurd h (by simp)
      | some l2 =>
        rw [hrec] at h
        rw [ih (by omega) hrec]
        exact h

/-- Helper: chain traversal is monotone in fuel. -/
theorem chainSeqGo_mono (descs : Nat → VDesc) :
    ∀ fuel1 : Nat, ∀ {fuel2 id : Nat}, ∀ {l : List Nat}, fuel1 ≤ fuel2 →
      chainSeqGo descs id fuel1 = some l → chainSeqGo descs id fuel2 = some l := by
  intro fuel1
  induction fuel1 with
  | zero =>
    intro fuel2 id l _ h
    exact absurd h (by simp [chainSeqGo])
  | succ f ih =>
    intro fuel2 id l hle h
    obtain ⟨f2, rfl⟩ : ∃ f2, fuel2 = f2 + 1 := ⟨fuel2 - 1, by omega⟩
    simp only [chainSeqGo] at h ⊢
    by_cases hc : (descs id).hasNext = false
    · rw [if_pos hc] at h ⊢; exact h
    · rw [if_neg hc] at h ⊢
      cases hrec : chainSeqGo descs (descs id).next f with
      | none => rw [hrec] at h; exact absurd h (by simp)
      | some l2 =>
        rw [hrec] at h
        rw [ih (by omega) hrec]
        exact h

/-- Helper: a successful free-list traversal is nonempty, starts at the
cursor, ends at the tail and is bounded by the fuel. -/
theorem freeSeqGo_structure (descs : Nat → VDesc) (last : Nat) :
    ∀ fuel cur : Nat, ∀ {l : List Nat}, freeSeqGo descs last cur fuel = some l →
      l ≠ [] ∧ l.head? = some cur ∧ l.getLast? = some last ∧ l.length ≤ fuel := by
  intro fuel
  induction fuel with
  | zero =>
    intro cur l h
    exact absurd h (by simp [freeSeqGo])
  | succ f ih =>
    intro cur l h
    simp only [freeSeqGo] at h
    by_cases hc : cur = last
    · rw [if_pos hc] at h
      injection h with h
      subst h
      exact ⟨by simp, by simp, by simp [hc], by simp⟩
    · rw [if_neg hc] at h
      cases hrec : freeSeqGo descs last (descs cur).next f with
      | none => rw [hrec] at h; exact absurd h (by simp)
      | some l2 =>
        rw [hrec] at h
        injection h with h
        subst h
        obtain ⟨hne, hhd, hlast, hlen⟩ := ih _ hrec
        obtain ⟨x, xs, rfl⟩ := List.exists_cons_of_ne_nil hne
        exact ⟨by simp, by simp, by rw [List.getLast?_cons_cons]; exact hlast,
          by simp only [List.length_cons] at hlen ⊢; omega⟩

/-- Helper: a successful chain traversal is nonempty, starts at the chain
head and is bounded by the fuel. -/
theorem chainSeqGo_structure (descs : Nat → VDesc) :
    ∀ fuel id : Nat, ∀ {l : List Nat}, chainSeqGo descs id fuel = some l →
      l ≠ [] ∧ l.head? = some id ∧ l.length ≤ fuel := by
  intro fuel
  induction fuel with
  | zero =>
    intro id l h
    exact absurd h (by simp [chainSeqGo])
  | succ f ih =>
    intro id l h
    simp only [chainSeqGo] at h
    by_cases hc : (descs id).hasNext = false
    · rw [if_pos hc] at h
      injection h with h
      subst h
      exact ⟨by simp, by simp, by simp⟩
    · rw [if_neg hc] at h
      cases hrec : chainSeqGo descs (descs id).next f with
      | none => rw [hrec] at h; exact absurd h (by simp)
      | some l2 =>
        rw [hrec] at h
        injection h with h
        subst h
        obtain ⟨hne, hhd, hlen⟩ := ih _ hrec
        exact ⟨by simp, by simp, by simp only [List.length_cons] at hlen ⊢; omega⟩

/-- Helper: chain traversal only reads the descriptors on the chain. -/
theorem chainSeqGo_frame (descs descs2 : Nat → VDesc) :
    ∀ fuel id : Nat, ∀ {l : List Nat}, chainSeqGo descs id fuel = some l →
      (∀ j ∈ l, descs2 j = descs j) → chainSeqGo descs2 id fuel = some l := by
  intro fuel
  induction fuel with
  | zero =>
    intro id l h _
    exact absurd h (by simp [chainSeqGo])
  | succ f ih =>
    intro id l h hagree
    simp only [chainSeqGo] at h ⊢
    by_cases hc : (descs id).hasNext = false
    · rw [if_pos hc] at h
      injection h with h
      subst h
      rw [if_pos (by rw [hagree id (by simp)]; exact hc)]
    · rw [if_neg hc] at h
      cases hrec : chainSeqGo descs (descs id).next f with
      | none => rw [hrec] at h; exact absurd h (by simp)
      | some l2 =>
        rw [hrec] at h
        injection h with h
        subst h
        have hid : descs2 id = descs id := hagree id (by simp)
        rw [if_neg (by rw [hid]; exact hc), hid,
          ih _ hrec (fun j hj => hagree j (by simp [hj]))]

/-- Helper: free-list traversal only reads the descriptors on the list,
except that the tail descriptor is never read. -/
theorem freeSeqGo_frame (descs descs2 : Nat → VDesc) (last : Nat) :
    ∀ fuel cur : Nat, ∀ {l : List Nat}, freeSeqGo descs last cur fuel = some l →
      (∀ j ∈ l, j ≠ last → descs2 j = descs j) → freeSeqGo descs2 last cur fuel = some l := by
  intro fuel
  induction fuel with
  | zero =>
    intro cur l h _
    exact absurd h (by simp [freeSeqGo])
  | succ f ih =>
    intro cur l h hagree
    simp only [freeSeqGo] at h ⊢
    by_cases hc : cur = last
    · rw [if_pos hc] at h ⊢; exact h
    · rw [if_neg hc] at h ⊢
      cases hrec : freeSeqGo descs last (descs cur).next f with
      | none => rw [hrec] at h; exact absurd h (by simp)
      | some l2 =>
        rw [hrec] at h
        injection h with h
        subst h
        rw [hagree cur (by simp) hc,
          ih _ hrec (fun j hj hjl => hagree j (by simp [hj]) hjl)]

/-- Helper: a chain is linked via `has_next`/`next` with the last
descriptor's `has_next` clear. -/
theorem chainSeqGo_isChain (descs : Nat → VDesc) :
    ∀ fuel id : Nat, ∀ {l : List Nat}, chainSeqGo descs id fuel = some l →
      IsChain descs l := by
  intro fuel
  induction fuel with
  | zero =>
    intro id l h
    exact absurd h (by simp [chainSeqGo])
  | succ f ih =>
    intro id l h
    simp only [chainSeqGo] at h
    by_cases hc : (descs id).hasNext = false
    · rw [if_pos hc] at h
      injection h with h
      subst h
      exact hc
    · rw [if_neg hc] at h
      cases hrec : chainSeqGo descs (descs id).next f with
      | none => rw [hrec] at h; exact absurd h (by simp)
      | some l2 =>
        rw [hrec] at h
        injection h with h
        subst h
        obtain ⟨hne, hhd, _⟩ := chainSeqGo_structure descs f _ hrec
        obtain ⟨x, xs, rfl⟩ := List.exists_cons_of_ne_nil hne
        simp only [List.head?_cons, Option.some.injEq] at hhd
        exact ⟨by revert hc; cases (descs id).hasNext <;> simp, hhd.symm ▸ rfl, ih _ hrec⟩

/-- Helper: a duplicate-free chain, traversed with the stop-at-tail-index
discipline of the free list, yields the same sequence. -/
theorem chainSeqGo_to_freeSeqGo (descs : Nat → VDesc) :
    ∀ fuel id z : Nat, ∀ {l : List Nat}, chainSeqGo descs id fuel = some l →
      l.Nodup → l.getLast? = some z → freeSeqGo descs z id fuel = some l := by
  intro fuel
  induction fuel with
  | zero =>
    intro id z l h _ _
    exact absurd h (by simp [chainSeqGo])
  | succ f ih =>
    intro id z l h hnd hlast
    simp only [chainSeqGo] at h
    simp only [freeSeqGo]
    by_cases hc : (descs id).hasNext = false
    · rw [if_pos hc] at h
      injection h with h
      subst h
      have hiz : id = z := by simpa using hlast
      rw [if_pos hiz]
    · rw [if_neg hc] at h
      cases hrec : chainSeqGo descs (descs id).next f with
      | none => rw [hrec] at h; exact absurd h (by simp)
      | some l2 =>
        rw [hrec] at h
        injection h with h
        subst h
        obtain ⟨hne, _, _⟩ := chainSeqGo_structure descs f _ hrec
        obtain ⟨x, xs, rfl⟩ := List.exists_cons_of_ne_nil hne
        rw [List.getLast?_cons_cons] at hlast
        have hzmem : z ∈ x :: xs := List.mem_of_mem_getLast? hlast
        have hidz : id ≠ z := by
          intro hcon
          subst hcon
          exact (List.nodup_cons.mp hnd).1 hzmem
        rw [if_neg hidz, ih _ _ hrec (List.nodup_cons.mp hnd).2 hlast]

/-- Helper: the chain-end walk of `do_complete` returns the last element of
the chain sequence. -/
theorem chainLastGo_eq (descs : Nat → VDesc) :
    ∀ fuel id : Nat, ∀ {l : List Nat}, chainSeqGo descs id fuel = some l →
      chainLastGo descs id fuel = l.getLast? := by
  intro fuel
  induction fuel with
  | zero =>
    intro id l h
    exact absurd h (by simp [chainSeqGo])
  | succ f ih =>
    intro id l h
    simp only [chainSeqGo] at h
    simp only [chainLastGo]
    by_cases hc : (descs id).hasNext = false
    · rw [if_pos hc] at h
      injection h with h
      subst h
      rw [if_pos hc]
      simp
    · rw [if_neg hc] at h
      cases hrec : chainSeqGo descs (descs id).next f with
      | none => rw [hrec] at h; exact absurd h (by simp)
      | some l2 =>
        rw [hrec] at h
        injection h with h
        subst h
        obtain ⟨hne, _, _⟩ := chainSeqGo_structure descs f _ hrec
        obtain ⟨x, xs, rfl⟩ := List.exists_cons_of_ne_nil hne
        rw [if_neg hc, ih _ hrec, List.getLast?_cons_cons]

/-- Helper: splicing a chain onto the free-list tail extends the traversal:
after pointing the old tail's `next` at the chain head, walking from the old
head with the chain's last element as the new tail yields the concatenation. -/
theorem freeSeqGo_append (descs descs2 : Nat → VDesc) (last z c0 : Nat) :
    ∀ fuel1 cur : Nat, ∀ {l m : List Nat}, ∀ {fuel2 : Nat},
      freeSeqGo descs last cur fuel1 = some l →
      (∀ j ∈ l, j ≠ last → descs2 j = descs j) →
      (descs2 last).next = c0 →
      freeSeqGo descs2 z c0 fuel2 = some m →
      z ∉ l →
      freeSeqGo descs2 z cur (fuel1 + fuel2) = some (l ++ m) := by
  intro fuel1
  induction fuel1 with
  | zero =>
    intro cur l m fuel2 h _ _ _ _
    exact absurd h (by simp [freeSeqGo])
  | succ f ih =>
    intro cur l m fuel2 h hagree hnext hm hz
    simp only [freeSeqGo] at h
    have hstep : f + 1 + fuel2 = (f + fuel2) + 1 := by omega
    rw [hstep]
    simp only [freeSeqGo]
    by_cases hc : cur = last
    · rw [if_pos hc] at h
      injection h with h
      subst h
      have hcz : cur ≠ z := fun hcon => hz (by simp [hcon])
      rw [if_neg hcz, hc, hnext,
        freeSeqGo_mono descs2 z fuel2 (by omega) hm]
      simp
    · rw [if_neg hc] at h
      cases hrec : freeSeqGo descs last (descs cur).next f with
      | none => rw [hrec] at h; exact absurd h (by simp)
      | some l2 =>
        rw [hrec] at h
        injection h with h
        subst h
        have hcz : cur ≠ z := fun hcon => hz (by simp [hcon])
        have hcur : descs2 cur = descs cur := hagree cur (by simp) hc
        rw [if_neg hcz, hcur,
          ih _ hrec (fun j hj hjl => hagree j (by simp [hj]) hjl) hnext hm
            (fun hcon => hz (by simp [hcon]))]
        exact rfl

/-- Helper: `SameRingCtl` is reflexive. -/
theorem sameRingCtl_refl (s : Vring) : SameRingCtl s s :=
  ⟨rfl, rfl, rfl, rfl, rfl, rfl, rfl, rfl, rfl, rfl, rfl, rfl, rfl, rfl⟩

/-- Helper: `SameRingCtl` is transitive. -/
theorem sameRingCtl_trans {a b c : Vring} (h1 : SameRingCtl a b) (h2 : SameRingCtl b c) :
    SameRingCtl a c := by
  obtain ⟨x1, x2, x3, x4, x5, x6, x7, x8, x9, x10, x11, x12, x13, x14⟩ := h1
  obtain ⟨y1, y2, y3, y4, y5, y6, y7, y8, y9, y10, y11, y12, y13, y14⟩ := h2
  exact ⟨x1.trans y1, x2.trans y2, x3.trans y3, x4.trans y4, x5.trans y5, x6.trans y6,
    x7.trans y7, x8.trans y8, x9.trans y9, x10.trans y10, x11.trans y11, x12.trans y12,
    x13.trans y13, x14.trans y14⟩

/-- Helper: writing a descriptor off the free list leaves the free-list
sequence unchanged. -/
theorem freeSeq_write (t : Vring) (fl : List Nat) (i : Nat) (d : VDesc)
    (h : freeSeq t = some fl) (hi : i ∉ fl) :
    freeSeq { t with descs := writeDesc t.descs i d } = some fl := by
  cases hh : t.freeHead with
  | none =>
    cases hl : t.freeLast with
    | none => simp only [freeSeq, hh, hl] at h ⊢; exact h
    | some lst => rw [freeSeq, hh, hl] at h; exact absurd h (by simp)
  | some hd =>
    cases hl : t.freeLast with
    | none => rw [freeSeq, hh, hl] at h; exact absurd h (by simp)
    | some lst =>
      simp only [freeSeq, hh, hl] at h ⊢
      exact freeSeqGo_frame t.descs _ lst t.size hd h
        (fun j hj _ => by
          simp only [writeDesc]
          rw [if_neg (fun hcon : j = i => hi (hcon ▸ hj))])

/-- Helper: an empty free list makes `allocate_desc` fail (the asserted
`_free_head != -1` contract). -/
theorem freeSeq_nil_allocate (s : Vring) (h : freeSeq s = some []) :
    allocateDesc s = none := by
  cases hh : s.freeHead with
  | none => simp only [allocateDesc, hh]
  | some hd =>
    cases hl : s.freeLast with
    | none => rw [freeSeq, hh, hl] at h; exact absurd h (by simp)
    | some lst =>
      simp only [freeSeq, hh, hl] at h
      exact absurd h (by
        intro hcon
        exact (freeSeqGo_structure s.descs lst s.size hd hcon).1 rfl)

/-- Helper: specification of `vring::allocate_desc` on a nonempty free list:
it pops the head in O(1) and leaves the descriptor table untouched. -/
theorem allocateDesc_spec (s : Vring) (a : Nat) (fl1 : List Nat)
    (h : freeSeq s = some (a :: fl1)) :
    ∃ s1, allocateDesc s = some (a, s1) ∧ s1.descs = s.descs ∧ SameRingCtl s1 s ∧
      freeSeq s1 = some fl1 := by
  cases hh : s.freeHead with
  | none =>
    cases hl : s.freeLast with
    | none => rw [freeSeq, hh, hl] at h; exact absurd h (by simp)
    | some lst => rw [freeSeq, hh, hl] at h; exact absurd h (by simp)
  | some hd =>
    cases hl : s.freeLast with
    | none => rw [freeSeq, hh, hl] at h; exact absurd h (by simp)
    | some lst =>
      simp only [freeSeq, hh, hl] at h
      obtain ⟨_, hhd, hlast, _⟩ := freeSeqGo_structure s.descs lst s.size hd h
      simp only [List.head?_cons, Option.some.injEq] at hhd
      subst hhd
      cases fl1 with
      | nil =>
        have hla : a = lst := by simpa using hlast
        subst hla
        refine ⟨{ s with freeHead := none, freeLast := none }, ?_, rfl,
          by simp [SameRingCtl], ?_⟩
        · simp [allocateDesc, hh, hl]
        · simp only [freeSeq]
      | cons x xs =>
        have hane : a ≠ lst := by
          intro hcon
          subst hcon
          cases hsz : s.size with
          | zero => rw [hsz] at h; exact absurd h (by simp [freeSeqGo])
          | succ n =>
            rw [hsz] at h
            simp only [freeSeqGo, if_pos rfl] at h
            exact absurd h (by simp)
        cases hsz : s.size with
        | zero => rw [hsz] at h; exact absurd h (by simp [freeSeqGo])
        | succ n =>
          rw [hsz] at h
          simp only [freeSeqGo, if_neg hane] at h
          cases hrec : freeSeqGo s.descs lst (s.descs a).next n with
          | none => rw [hrec] at h; exact absurd h (by simp)
          | some l2 =>
            rw [hrec] at h
            simp only [Option.some.injEq, List.cons.injEq] at h
            refine ⟨{ s with freeHead := some ((s.descs a).next) }, ?_, rfl,
              by simp [SameRingCtl], ?_⟩
            · simp only [allocateDesc, hh, hl]
              rw [if_neg (by simpa using fun hcon => hane hcon.symm)]
            · simp only [freeSeq, hl, hsz]
              rw [← h.2]
              exact freeSeqGo_mono s.descs lst n (by omega) hrec

/-- Helper: specification of the descriptor-chain building loop of
`vring::post`.  Starting after a predecessor descriptor `prev` (not on the
free list, with `has_next` clear), posting `bufs` pops exactly `bufs.length`
descriptors off the free-list front, writes the buffers into them in order,
links them behind `prev`, and touches no other descriptor. -/
theorem postChainGo_spec : ∀ (bufs : List VBuffer) (s : Vring) (prev : Nat) (fl : List Nat)
    (s2 : Vring),
    freeSeq s = some fl → fl.Nodup → prev ∉ fl → (s.descs prev).hasNext = false →
    postChainGo s bufs prev = some s2 →
    bufs.length ≤ fl.length ∧
    SameRingCtl s2 s ∧
    freeSeq s2 = some (fl.drop bufs.length) ∧
    (∀ j, j ∉ prev :: fl.take bufs.length → s2.descs j = s.descs j) ∧
    ((s2.descs prev).paddr = (s.descs prev).paddr ∧ (s2.descs prev).len = (s.descs prev).len ∧
      (s2.descs prev).writeable = (s.descs prev).writeable) ∧
    chainSeqGo s2.descs prev (bufs.length + 1) = some (prev :: fl.take bufs.length) ∧
    List.Forall₂ (fun d b => (s2.descs d).paddr = b.addr ∧ (s2.descs d).len = b.len ∧
      (s2.descs d).writeable = b.writeable) (fl.take bufs.length) bufs := by
  intro bufs
  induction bufs with
  | nil =>
    intro s prev fl s2 hfl hnd hpf hpn hrun
    simp only [postChainGo] at hrun
    injection hrun with hrun
    subst hrun
    refine ⟨by simp, sameRingCtl_refl s, by simpa using hfl, fun j _ => rfl,
      ⟨rfl, rfl, rfl⟩, ?_, by simp⟩
    simp only [List.length_nil, List.take_zero, chainSeqGo, if_pos hpn]
  | cons b rest ih =>
    intro s prev fl s2 hfl hnd hpf hpn hrun
    cases fl with
    | nil =>
      simp only [postChainGo, freeSeq_nil_allocate s hfl] at hrun
      exact absurd hrun (by simp)
    | cons a fl1 =>
      obtain ⟨s1, halloc, hdescs1, hctl1, hfree1⟩ := allocateDesc_spec s a fl1 hfl
      simp only [postChainGo, halloc] at hrun
      have hpa : prev ≠ a := fun hcon => hpf (by simp [hcon])
      have hafl1 : a ∉ fl1 := (List.nodup_cons.mp hnd).1
      have hpfl1 : prev ∉ fl1 := fun hcon => hpf (by simp [hcon])
      obtain ⟨hlen, hctl2, hfree2, hframe, hprevf, hchain, hall⟩ :=
        ih _ a fl1 s2
          (by
            refine freeSeq_write _ fl1 a _ (freeSeq_write s1 fl1 prev _ hfree1 hpfl1) hafl1)
          (List.nodup_cons.mp hnd).2 hafl1
          (by simp [writeDesc]) hrun
      have hframe2 : ∀ j, j ∉ prev :: a :: fl1.take rest.length → s2.descs j = s.descs j := by
        intro j hj
        have hja : j ≠ a := fun hcon => hj (by simp [hcon])
        have hjp : j ≠ prev := fun hcon => hj (by simp [hcon])
        have hjt : j ∉ a :: fl1.take rest.length := fun hcon => hj (by
          rcases List.mem_cons.mp hcon with hx | hx
          · simp [hx]
          · simp [hx])
        rw [hframe j hjt]
        simp only [writeDesc, if_neg hja, if_neg hjp]
        rw [hdescs1]
      have hsprev : s2.descs prev =
          { s.descs prev with hasNext := true, next := a } := by
        have hpt : prev ∉ a :: fl1.take rest.length := by
          intro hcon
          rcases List.mem_cons.mp hcon with hx | hx
          · exact hpa hx
          · exact hpfl1 (List.mem_of_mem_take hx)
        rw [hframe prev hpt, hdescs1]
        simp [writeDesc, hpa]
      have hsa : (s2.descs a).paddr = b.addr ∧ (s2.descs a).len = b.len ∧
          (s2.descs a).writeable = b.writeable := by
        obtain ⟨p1, p2, p3⟩ := hprevf
        refine ⟨?_, ?_, ?_⟩
        · rw [p1]; simp [writeDesc]
        · rw [p2]; simp [writeDesc]
        · rw [p3]; simp [writeDesc]
      refine ⟨by simp only [List.length_cons] at hlen ⊢; omega,
        sameRingCtl_trans hctl2 (sameRingCtl_trans ⟨rfl, rfl, rfl, rfl, rfl, rfl, rfl, rfl,
          rfl, rfl, rfl, rfl, rfl, rfl⟩ hctl1), ?_, ?_, ?_, ?_, ?_⟩
      · simpa using hfree2
      · simpa using hframe2
      · have hppre : prev ∉ a :: fl1.take rest.length := by
          intro hcon
          rcases List.mem_cons.mp hcon with hx | hx
          · exact hpa hx
          · exact hpfl1 (List.mem_of_mem_take hx)
        rw [hsprev]
        exact ⟨rfl, rfl, rfl⟩
      · simp only [List.length_cons, List.take_succ_cons]
        simp only [chainSeqGo]
        rw [if_neg (by rw [hsprev]; simp), hsprev]
        simp only [chainSeqGo] at hchain
        rw [hchain]
      · simp only [List.length_cons, List.take_succ_cons]
        exact List.Forall₂.cons hsa hall

/-- Helper: specification of building one whole chain in `vring::post`: the
chain head is the old free-list head, the chain occupies exactly the first
`bufs.length` free descriptors in order, and carries the buffers' fields. -/
theorem postChain_spec (s : Vring) (bufs : List VBuffer) (fl : List Nat) (head : Nat)
    (s2 : Vring) (hne : bufs ≠ [])
    (hfl : freeSeq s = some fl) (hnd : fl.Nodup)
    (hrun : postChain s bufs = some (head, s2)) :
    bufs.length ≤ fl.length ∧
    fl.head? = some head ∧
    SameRingCtl s2 s ∧
    freeSeq s2 = some (fl.drop bufs.length) ∧
    (∀ j, j ∉ fl.take bufs.length → s2.descs j = s.descs j) ∧
    chainSeqGo s2.descs head bufs.length = some (fl.take bufs.length) ∧
    List.Forall₂ (fun d b => (s2.descs d).paddr = b.addr ∧ (s2.descs d).len = b.len ∧
      (s2.descs d).writeable = b.writeable) (fl.take bufs.length) bufs := by
  cases bufs with
  | nil => exact absurd rfl hne
  | cons b rest =>
    cases fl with
    | nil =>
      simp only [postChain, freeSeq_nil_allocate s hfl] at hrun
      exact absurd hrun (by simp)
    | cons a fl1 =>
      obtain ⟨s1, halloc, hdescs1, hctl1, hfree1⟩ := allocateDesc_spec s a fl1 hfl
      simp only [postChain, halloc] at hrun
      have hafl1 : a ∉ fl1 := (List.nodup_cons.mp hnd).1
      split at hrun
      case h_1 => exact absurd hrun (by simp)
      case h_2 s3 hgo =>
        injection hrun with hrun
        injection hrun with hhead hs3
        subst hhead
        subst hs3
        obtain ⟨hlen, hctl2, hfree2, hframe, hprevf, hchain, hall⟩ :=
          postChainGo_spec rest _ a fl1 s3
            (freeSeq_write s1 fl1 a _ hfree1 hafl1)
            (List.nodup_cons.mp hnd).2 hafl1
            (by simp [writeDesc]) hgo
        refine ⟨by simp only [List.length_cons] at hlen ⊢; omega, rfl,
          sameRingCtl_trans hctl2 (sameRingCtl_trans ⟨rfl, rfl, rfl, rfl, rfl, rfl, rfl, rfl,
            rfl, rfl, rfl, rfl, rfl, rfl⟩ hctl1), ?_, ?_, ?_, ?_⟩
        · simpa using hfree2
        · intro j hj
          simp only [List.length_cons, List.take_succ_cons] at hj
          rw [hframe j hj, hdescs1]
          have hja : j ≠ a := fun hcon => hj (by simp [hcon])
          simp [writeDesc, hja]
        · simp only [List.length_cons, List.take_succ_cons]
          exact hchain
        · simp only [List.length_cons, List.take_succ_cons]
          refine List.Forall₂.cons ?_ hall
          obtain ⟨p1, p2, p3⟩ := hprevf
          refine ⟨?_, ?_, ?_⟩
          · rw [p1]; simp [writeDesc]
          · rw [p2]; simp [writeDesc]
          · rw [p3]; simp [writeDesc]

/-- Helper: unfolding `chainsSeq` on a cons cell. -/
theorem chainsSeq_cons_elim (descs : Nat → VDesc) (fuel id : Nat) (rest : List Nat)
    (cs : List (List Nat)) (h : chainsSeq descs fuel (id :: rest) = some cs) :
    ∃ c cs1, cs = c :: cs1 ∧ chainSeqGo descs id fuel = some c ∧
      chainsSeq descs fuel rest = some cs1 := by
  simp only [chainsSeq] at h
  cases hc : chainSeqGo descs id fuel with
  | none => rw [hc] at h; exact absurd h (by simp)
  | some c =>
    cases hcs : chainsSeq descs fuel rest with
    | none => rw [hc, hcs] at h; exact absurd h (by simp)
    | some cs1 =>
      rw [hc, hcs] at h
      injection h with h
      exact ⟨c, cs1, h.symm, rfl, rfl⟩

/-- Helper: the chains of the completions table only depend on the
descriptors inside those chains. -/
theorem chainsSeq_frame (descs descs2 : Nat → VDesc) (fuel : Nat) :
    ∀ ids : List Nat, ∀ {cs : List (List Nat)}, chainsSeq descs fuel ids = some cs →
      (∀ j ∈ cs.flatten, descs2 j = descs j) → chainsSeq descs2 fuel ids = some cs := by
  intro ids
  induction ids with
  | nil =>
    intro cs h _
    simp only [chainsSeq] at h ⊢
    exact h
  | cons id rest ih =>
    intro cs h hagree
    obtain ⟨c, cs1, rfl, hc, hcs1⟩ := chainsSeq_cons_elim descs fuel id rest cs h
    simp only [chainsSeq]
    rw [chainSeqGo_frame descs descs2 fuel id hc
      (fun j hj => hagree j (by simp [hj])),
      ih hcs1 (fun j hj => hagree j (by simp [hj]))]

/-- Helper: permuting the completions table permutes the chain inventory. -/
theorem chainsSeq_perm (descs : Nat → VDesc) (fuel : Nat) :
    ∀ {ids1 ids2 : List Nat}, ids1.Perm ids2 → ∀ {cs1 : List (List Nat)},
      chainsSeq descs fuel ids1 = some cs1 →
      ∃ cs2, chainsSeq descs fuel ids2 = some cs2 ∧ cs1.flatten.Perm cs2.flatten := by
  intro ids1 ids2 hperm
  induction hperm with
  | nil =>
    intro cs1 h
    exact ⟨cs1, h, List.Perm.refl _⟩
  | cons x hrest ih =>
    intro cs1 h
    obtain ⟨c, cs1a, rfl, hc, hcs1⟩ := chainsSeq_cons_elim descs fuel x _ cs1 h
    obtain ⟨cs2, hcs2, hpflat⟩ := ih hcs1
    refine ⟨c :: cs2, ?_, ?_⟩
    · simp only [chainsSeq, hc, hcs2]
    · simpa using hpflat.append_left c
  | swap x y l =>
    intro cs1 h
    obtain ⟨cy, csa, rfl, hcy, ha⟩ := chainsSeq_cons_elim descs fuel y _ cs1 h
    obtain ⟨cx, csb, rfl, hcx, hb⟩ := chainsSeq_cons_elim descs fuel x _ csa ha
    refine ⟨cx :: cy :: csb, by simp only [chainsSeq, hcx, hcy, hb], ?_⟩
    simp only [List.flatten_cons]
    have hstep : ((cy ++ cx) ++ csb.flatten).Perm ((cx ++ cy) ++ csb.flatten) :=
      List.Perm.append_right _ List.perm_append_comm
    rw [List.append_assoc, List.append_assoc] at hstep
    exact hstep
  | trans h1 h2 ih1 ih2 =>
    intro cs1 h
    obtain ⟨csm, hm, hp1⟩ := ih1 h
    obtain ⟨cs2, h2b, hp2⟩ := ih2 hm
    exact ⟨cs2, h2b, hp1.trans hp2⟩

/-- Helper: the free-list sequence only depends on the descriptor table, the
head/tail indices and the ring size. -/
theorem freeSeq_eq_of (a b : Vring) (h1 : a.descs = b.descs) (h2 : a.freeHead = b.freeHead)
    (h3 : a.freeLast = b.freeLast) (h4 : a.size = b.size) : freeSeq a = freeSeq b := by
  simp only [freeSeq, h1, h2, h3, h4]

/-- Helper: specification of one chain posting in `vring::post` from a
well-formed state: well-formedness is preserved, the chain head (the old
free-list head) gains the outstanding completion, carries the buffers in
order, and is published into `avail.ring[masked(_avail._head++)]` in
interrupt mode or appended to `_batch` in poll mode. -/
theorem postOne_spec (s : Vring) (bufs : List VBuffer) (s2 : Vring)
    (hwf : VringWF s) (hne : bufs ≠ []) (hrun : postOne s bufs = some s2) :
    VringWF s2 ∧
    s2.size = s.size ∧ s2.pollMode = s.pollMode ∧ s2.eventIndex = s.eventIndex ∧
    s2.usedTail = s.usedTail ∧ s2.availIdx = s.availIdx ∧ s2.availFlags = s.availFlags ∧
    s2.usedEvent = s.usedEvent ∧ s2.notified = s.notified ∧
    s2.availableDescriptors = s.availableDescriptors ∧
    ∃ head c fl,
      freeSeq s = some fl ∧ fl.head? = some head ∧
      s2.outstanding = head :: s.outstanding ∧
      c = fl.take bufs.length ∧ 1 ≤ fl.length ∧ bufs.length ≤ fl.length ∧
      fl.length ≤ s.size ∧
      freeSeq s2 = some (fl.drop bufs.length) ∧
      chainSeqGo s2.descs head s.size = some c ∧
      List.Forall₂ (fun d b => (s2.descs d).paddr = b.addr ∧ (s2.descs d).len = b.len ∧
        (s2.descs d).writeable = b.writeable) c bufs ∧
      (∀ j, j ∉ c → s2.descs j = s.descs j) ∧
      (s.pollMode = false →
        s2.availHead = (s.availHead + 1) % 65536 ∧
        s2.availRing (s.availHead &&& (s.size - 1)) = head ∧
        (∀ j, j ≠ s.availHead &&& (s.size - 1) → s2.availRing j = s.availRing j) ∧
        s2.batch = s.batch) ∧
      (s.pollMode = true →
        s2.availHead = s.availHead ∧ s2.availRing = s.availRing ∧
        s2.batch = s.batch ++ [head]) := by
  obtain ⟨hpow, hah, hut, hai, hadd, fl, cs, hfl, hcs, hperm⟩ := hwf
  have hndall : (fl ++ cs.flatten).Nodup :=
    hperm.nodup_iff.mpr (List.nodup_range s.size)
  obtain ⟨hndfl, hndcs, hdisj⟩ := List.nodup_append.mp hndall
  have hflen : fl.length + cs.flatten.length = s.size := by
    have := hperm.length_eq
    simpa using this
  simp only [postOne] at hrun
  split at hrun
  case h_1 => exact absurd hrun (by simp)
  case h_2 head s1 hpc =>
    obtain ⟨hlen1, hhd, hctl, hfree1, hframe, hchain, hall⟩ :=
      postChain_spec s bufs fl head s1 hne hfl hndfl hpc
    obtain ⟨e1, e2, e3, e4, e5, e6, e7, e8, e9, e10, e11, e12, e13, e14⟩ := hctl
    have hflne : fl ≠ [] := by
      intro hcon
      rw [hcon] at hhd
      exact absurd hhd (by simp)
    have hfl1 : 1 ≤ fl.length := by
      cases fl with
      | nil => exact absurd rfl hflne
      | cons x xs => simp
    have hfllen : fl.length ≤ s.size := by omega
    have hchainsz : chainSeqGo s1.descs head s.size = some (fl.take bufs.length) :=
      chainSeqGo_mono s1.descs bufs.length (by omega) hchain
    have hframecs : ∀ j ∈ cs.flatten, s1.descs j = s.descs j := by
      intro j hj
      exact hframe j (fun hcon => hdisj (List.mem_of_mem_take hcon) hj)
    have hcs1 : chainsSeq s1.descs s.size s.outstanding = some cs :=
      chainsSeq_frame s.descs s1.descs s.size s.outstanding hcs hframecs
    have hpermnew : ((fl.drop bufs.length) ++ ((fl.take bufs.length) :: cs).flatten).Perm
        (List.range s.size) := by
      refine List.Perm.trans ?_ hperm
      simp only [List.flatten_cons]
      have h1 : (fl.drop bufs.length ++ fl.take bufs.length).Perm fl := by
        have h2 : (fl.drop bufs.length ++ fl.take bufs.length).Perm
            (fl.take bufs.length ++ fl.drop bufs.length) := List.perm_append_comm
        rwa [List.take_append_drop] at h2
      have h3 : ((fl.drop bufs.length ++ fl.take bufs.length) ++ cs.flatten).Perm
          (fl ++ cs.flatten) := List.Perm.append_right _ h1
      rwa [List.append_assoc] at h3
    obtain ⟨k, hk, hsz⟩ := hpow
    have hchains2 : chainsSeq s1.descs s.size (head :: s.outstanding) =
        some (fl.take bufs.length :: cs) := by
      simp only [chainsSeq, hchainsz, hcs1]
    cases hpm : s.pollMode with
    | false =>
      have hpm1 : s1.pollMode = false := by rw [e3, hpm]
      simp only [hpm1] at hrun
      rw [if_pos trivial] at hrun
      injection hrun with hrun
      subst hrun
      refine ⟨⟨⟨k, hk, by simpa using hsz ▸ e1⟩, ?_, by simpa using e10 ▸ hut,
          by simpa using e5 ▸ hai, ?_, ?_⟩,
        e1, by simpa using e3, by simpa using e2, by simpa using e10,
        by simpa using e5, by simpa using e7, by simpa using e8, by simpa using e13,
        by simpa using e14, head, fl.take bufs.length, fl, hfl, hhd,
        by simpa using e12, rfl, hfl1, hlen1, hfllen, ?_, ?_, ?_, ?_, ?_, ?_⟩
      · show (s1.availHead + 1) % 65536 < 65536
        omega
      · show (s1.availAddedSinceKick + 1) % 65536 < 65536
        omega
      · refine ⟨fl.drop bufs.length, fl.take bufs.length :: cs, ?_, ?_, ?_⟩
        · exact hfree1
        · have hc2 := hchains2
          rw [← e12] at hc2
          rw [← e1] at hc2
          exact hc2
        · simpa [e1] using hpermnew
      · exact hfree1
      · simpa using hchainsz
      · simpa using hall
      · intro j hj
        simpa using hframe j hj
      · intro _
        refine ⟨by rw [e4], ?_, ?_, by simpa using e11⟩
        · show (if s.availHead &&& (s.size - 1) = s1.availHead &&& (s1.size - 1) then head
              else s1.availRing (s.availHead &&& (s.size - 1))) = head
          rw [if_pos (by rw [e4, e1])]
        · intro j hj
          show (if j = s1.availHead &&& (s1.size - 1) then head else s1.availRing j) =
            s.availRing j
          rw [if_neg (by rw [e4, e1]; exact hj), e6]
      · intro hcon
        exact absurd hcon (by simp)
    | true =>
      have hpm1 : s1.pollMode = true := by rw [e3, hpm]
      simp only [hpm1] at hrun
      rw [if_neg (by simp)] at hrun
      injection hrun with hrun
      subst hrun
      refine ⟨⟨⟨k, hk, by simpa using hsz ▸ e1⟩, by simpa using e4 ▸ hah,
          by simpa using e10 ▸ hut, by simpa using e5 ▸ hai, ?_, ?_⟩,
        e1, by simpa using e3, by simpa using e2, by simpa using e10,
        by simpa using e5, by simpa using e7, by simpa using e8, by simpa using e13,
        by simpa using e14, head, fl.take bufs.length, fl, hfl, hhd,
        by simpa using e12, rfl, hfl1, hlen1, hfllen, ?_, ?_, ?_, ?_, ?_, ?_⟩
      · show (s1.availAddedSinceKick + 1) % 65536 < 65536
        omega
      · refine ⟨fl.drop bufs.length, fl.take bufs.length :: cs, ?_, ?_, ?_⟩
        · exact hfree1
        · have hc2 := hchains2
          rw [← e12] at hc2
          rw [← e1] at hc2
          exact hc2
        · simpa [e1] using hpermnew
      · exact hfree1
      · simpa using hchainsz
      · simpa using hall
      · intro j hj
        simpa using hframe j hj
      · intro hcon
        exact absurd hcon (by simp)
      · intro _
        refine ⟨e4, by simpa using e6, ?_⟩
        show s1.batch ++ [head] = s.batch ++ [head]
        rw [e11]

/-- Helper: a successful free-list traversal also succeeds with any fuel at
least the length of its result. -/
theorem freeSeqGo_shrink (descs : Nat → VDesc) (last : Nat) :
    ∀ fuel1 : Nat, ∀ {fuel2 cur : Nat}, ∀ {l : List Nat},
      freeSeqGo descs last cur fuel1 = some l → l.length ≤ fuel2 →
      freeSeqGo descs last cur fuel2 = some l := by
  intro fuel1
  induction fuel1 with
  | zero =>
    intro fuel2 cur l h _
    exact absurd h (by simp [freeSeqGo])
  | succ f ih =>
    intro fuel2 cur l h hle
    simp only [freeSeqGo] at h
    by_cases hc : cur = last
    · rw [if_pos hc] at h
      injection h with h
      subst h
      obtain ⟨f2, rfl⟩ : ∃ f2, fuel2 = f2 + 1 := ⟨fuel2 - 1, by simp at hle; omega⟩
      simp only [freeSeqGo, if_pos hc]
    · rw [if_neg hc] at h
      cases hrec : freeSeqGo descs last (descs cur).next f with
      | none => rw [hrec] at h; exact absurd h (by simp)
      | some l2 =>
        rw [hrec] at h
        injection h with h
        subst h
        obtain ⟨f2, rfl⟩ : ∃ f2, fuel2 = f2 + 1 := ⟨fuel2 - 1, by simp at hle; omega⟩
        simp only [freeSeqGo, if_neg hc]
        rw [ih hrec (by simp at hle; omega)]

/-- Helper: assembling `freeSeq` from its head/tail words and traversal. -/
theorem freeSeq_build (t : Vring) (hd z : Nat) (l : List Nat)
    (hh : t.freeHead = some hd) (hl : t.freeLast = some z)
    (hgo : freeSeqGo t.descs z hd t.size = some l) : freeSeq t = some l := by
  simp only [freeSeq, hh, hl]
  exact hgo

/-- Helper: `vring::do_complete` draining one used element preserves
well-formedness: the freed chain moves from the completions table onto the
free-list tail. -/
theorem completeOne_spec (s : Vring) (e : UsedElem) (s2 : Vring)
    (hwf : VringWF s) (hrun : completeOne s e = some s2) : VringWF s2 := by
  obtain ⟨⟨k, hk, hsz⟩, hah, hut, hai, hadd, fl, cs, hfl, hcs, hperm⟩ := hwf
  have hndall : (fl ++ cs.flatten).Nodup :=
    hperm.nodup_iff.mpr (List.nodup_range s.size)
  obtain ⟨hndfl, hndcs, hdisj⟩ := List.nodup_append.mp hndall
  have hflen : fl.length + cs.flatten.length = s.size := by
    have := hperm.length_eq
    simpa using this
  simp only [completeOne] at hrun
  split at hrun
  case isFalse => exact absurd hrun (by simp)
  case isTrue hmem =>
    obtain ⟨cs2, hcs2, hflat⟩ :=
      chainsSeq_perm s.descs s.size (List.perm_cons_erase hmem) hcs
    obtain ⟨m, cs3, rfl, hm, hcs3⟩ :=
      chainsSeq_cons_elim s.descs s.size e.id _ cs2 hcs2
    have hnd2 : (m ++ cs3.flatten).Nodup := by
      have : cs.flatten.Nodup := hndcs
      have h2 : (m :: cs3).flatten.Nodup := hflat.nodup_iff.mp this
      simpa using h2
    obtain ⟨hndm, hndcs3, hdisj2⟩ := List.nodup_append.mp hnd2
    obtain ⟨hmne, _, hmlen⟩ := chainSeqGo_structure s.descs s.size e.id hm
    have hmsub : ∀ j ∈ m, j ∈ cs.flatten := by
      intro j hj
      exact hflat.symm.subset (by simp [hj])
    have hcs3sub : ∀ j ∈ cs3.flatten, j ∈ cs.flatten := by
      intro j hj
      exact hflat.symm.subset (by simp [hj])
    have hz := List.getLast?_eq_getLast_of_ne_nil hmne
    set z := m.getLast hmne with hzdef
    have hpermfinal : ((fl ++ m) ++ cs3.flatten).Perm (List.range s.size) := by
      have h1 : ((fl ++ m) ++ cs3.flatten).Perm (fl ++ (m :: cs3).flatten) := by
        simp only [List.flatten_cons, List.append_assoc]
        exact List.Perm.refl _
      have h2 : (fl ++ (m :: cs3).flatten).Perm (fl ++ cs.flatten) :=
        List.Perm.append_left fl hflat.symm
      exact (h1.trans h2).trans hperm
    have hlen2 : (fl ++ m).length ≤ s.size := by
      have h3 := hflat.length_eq
      have h4 : (m :: cs3).flatten.length = m.length + cs3.flatten.length := by simp
      simp only [List.length_append]
      omega
    cases hfll : s.freeLast with
    | none =>
      cases hflh : s.freeHead with
      | some hd => rw [freeSeq, hflh, hfll] at hfl; exact absurd hfl (by simp)
      | none =>
        rw [freeSeq, hflh, hfll] at hfl
        injection hfl with hfl
        subst hfl
        rw [hfll] at hrun
        simp only at hrun
        have hlast : chainLastGo s.descs e.id s.size = some z :=
          (chainLastGo_eq s.descs s.size e.id hm).trans (by rw [hz])
        rw [hlast] at hrun
        injection hrun with hrun
        subst hrun
        refine ⟨⟨k, hk, hsz⟩, hah, by simpa using Nat.mod_lt _ (by omega), hai, hadd,
          m, cs3, ?_, ?_, ?_⟩
        · exact freeSeq_build _ e.id z m rfl rfl
            (chainSeqGo_to_freeSeqGo s.descs s.size e.id z hm hndm (by rw [hz]))
        · exact hcs3
        · simpa using hpermfinal
    | some flast =>
      cases hflh : s.freeHead with
      | none => rw [freeSeq, hflh, hfll] at hfl; exact absurd hfl (by simp)
      | some hd =>
        rw [freeSeq, hflh, hfll] at hfl
        obtain ⟨hflne2, hhd2, hlast2, _⟩ := freeSeqGo_structure s.descs flast s.size hd hfl
        rw [hfll] at hrun
        simp only at hrun
        have hflastfl : flast ∈ fl := List.mem_of_mem_getLast? hlast2
        have hflastm : flast ∉ m := fun hcon => hdisj hflastfl (hmsub flast hcon)
        have hmagree : ∀ j ∈ m, writeDesc s.descs flast
            { s.descs flast with next := e.id } j = s.descs j := by
          intro j hj
          simp only [writeDesc]
          rw [if_neg (fun hcon : j = flast => hflastm (hcon ▸ hj))]
        have hm2 : chainSeqGo (writeDesc s.descs flast { s.descs flast with next := e.id })
            e.id s.size = some m :=
          chainSeqGo_frame s.descs _ s.size e.id hm hmagree
        have hlast3 : chainLastGo (writeDesc s.descs flast
            { s.descs flast with next := e.id }) e.id s.size = some z :=
          (chainLastGo_eq _ s.size e.id hm2).trans (by rw [hz])
        rw [hlast3] at hrun
        injection hrun with hrun
        subst hrun
        refine ⟨⟨k, hk, hsz⟩, hah, by simpa using Nat.mod_lt _ (by omega), hai, hadd,
          fl ++ m, cs3, ?_, ?_, ?_⟩
        · have happ := freeSeqGo_append s.descs
            (writeDesc s.descs flast { s.descs flast with next := e.id })
            flast z e.id s.size hd hfl
            (fun j _ hjl => by
              simp only [writeDesc]
              rw [if_neg hjl])
            (by simp [writeDesc])
            (chainSeqGo_to_freeSeqGo _ s.size e.id z hm2 hndm (by rw [hz]))
            (fun hcon => hdisj hcon (hmsub z (by rw [hzdef]; exact List.getLast_mem hmne)))
          exact freeSeq_build _ hd z (fl ++ m) hflh rfl
            (freeSeqGo_shrink _ z _ happ (by simpa using hlen2))
        · exact chainsSeq_frame s.descs _ s.size _ hcs3
            (fun j hj => by
              simp only [writeDesc]
              rw [if_neg (fun hcon : j = flast =>
                hdisj hflastfl (hcon ▸ hcs3sub j hj))])
        · exact hpermfinal

/-- Helper: well-formedness only depends on the allocator-relevant fields. -/
theorem VringWF_of_eq (a b : Vring) (hwf : VringWF a)
    (h1 : b.size = a.size)
    (h2 : b.availHead < 65536 ∨ b.availHead = a.availHead)
    (h3 : b.usedTail < 65536 ∨ b.usedTail = a.usedTail)
    (h4 : b.availIdx < 65536 ∨ b.availIdx = a.availIdx)
    (h5 : b.availAddedSinceKick < 65536 ∨ b.availAddedSinceKick = a.availAddedSinceKick)
    (h6 : b.descs = a.descs) (h7 : b.freeHead = a.freeHead) (h8 : b.freeLast = a.freeLast)
    (h9 : b.outstanding = a.outstanding) : VringWF b := by
  obtain ⟨⟨k, hk, hsz⟩, hah, hut, hai, hadd, fl, cs, hfl, hcs, hperm⟩ := hwf
  refine ⟨⟨k, hk, by rw [h1, hsz]⟩, ?_, ?_, ?_, ?_, fl, cs, ?_, ?_, ?_⟩
  · rcases h2 with h | h
    · exact h
    · rw [h]; exact hah
  · rcases h3 with h | h
    · exact h
    · rw [h]; exact hut
  · rcases h4 with h | h
    · exact h
    · rw [h]; exact hai
  · rcases h5 with h | h
    · exact h
    · rw [h]; exact hadd
  · rw [freeSeq_eq_of b a h6 h7 h8 h1]
    exact hfl
  · rw [h6, h1, h9]
    exact hcs
  · rw [h1]
    exact hperm

/-- Helper: the kick policy preserves well-formedness. -/
theorem vringKick_WF (s : Vring) (hAE hUF : Nat) (hwf : VringWF s) :
    VringWF (vringKick s hAE hUF) := by
  simp only [vringKick]
  split
  · split
    · exact VringWF_of_eq s _ hwf rfl (Or.inr rfl) (Or.inr rfl) (Or.inr rfl) (Or.inl (by simp)) rfl rfl rfl rfl
    · exact hwf
  · split
    · exact hwf
    · exact VringWF_of_eq s _ hwf rfl (Or.inr rfl) (Or.inr rfl) (Or.inr rfl) (Or.inl (by simp)) rfl rfl rfl rfl

/-- Helper: `disable_interrupts` and the arming store preserve
well-formedness. -/
theorem disableInterrupts_WF (s : Vring) (hwf : VringWF s) :
    VringWF (disableInterrupts s) := by
  rw [disableInterrupts]
  split
  · exact VringWF_of_eq s _ hwf rfl (Or.inr rfl) (Or.inr rfl) (Or.inr rfl) (Or.inr rfl) rfl rfl rfl rfl
  · exact hwf

/-- Helper: see `disableInterrupts_WF`. -/
theorem armInterrupts_WF (s : Vring) (hwf : VringWF s) :
    VringWF (armInterrupts s) := by
  rw [armInterrupts]
  split
  · exact VringWF_of_eq s _ hwf rfl (Or.inr rfl) (Or.inr rfl) (Or.inr rfl) (Or.inr rfl) rfl rfl rfl rfl
  · exact VringWF_of_eq s _ hwf rfl (Or.inr rfl) (Or.inr rfl) (Or.inr rfl) (Or.inr rfl) rfl rfl rfl rfl

/-- Helper: the inner drain loop preserves well-formedness. -/
theorem drainN_WF (elems : List UsedElem) : ∀ s s2 : Vring, VringWF s →
    drainN s elems = some s2 → VringWF s2 := by
  induction elems with
  | nil =>
    intro s s2 hwf h
    simp only [drainN] at h
    injection h with h
    subst h
    exact hwf
  | cons e rest ih =>
    intro s s2 hwf h
    simp only [drainN] at h
    split at h
    · exact absurd h (by simp)
    next smid hmid => exact ih smid s2 (completeOne_spec s e smid hwf hmid) h

/-- Helper: `do_complete` preserves well-formedness. -/
theorem doComplete_WF (fuel : Nat) : ∀ (s : Vring) (loads : List Nat)
    (elems : List UsedElem) (s2 : Vring) (tr : List VEv), VringWF s →
    doComplete s loads elems fuel = some (s2, tr) → VringWF s2 := by
  induction fuel with
  | zero =>
    intro s loads elems s2 tr _ h
    exact absurd h (by simp [doComplete, doCompleteAux])
  | succ fuel ih =>
    intro s loads elems s2 tr hwf h
    simp only [doComplete, doCompleteAux] at h
    rcases loads with _ | ⟨v0, loads1⟩
    · exact absurd h (by simp)
    simp only at h
    split at h
    case isFalse => exact absurd h (by simp)
    case isTrue =>
      split at h
      case h_1 => exact absurd h (by simp)
      case h_2 sdr hdr =>
        have hwf2 : VringWF sdr := drainN_WF _ _ _ (disableInterrupts_WF s hwf) hdr
        split at h
        · injection h with h
          injection h with h1 h2
          subst h1
          exact hwf2
        · rcases loads1 with _ | ⟨w0, loads2⟩
          · exact absurd h (by simp)
          simp only at h
          split at h
          · injection h with h
            injection h with h1 h2
            subst h1
            exact armInterrupts_WF sdr hwf2
          · split at h
            case h_1 => exact absurd h (by simp)
            case h_2 s4 tr4 hrec =>
              injection h with h
              injection h with h1 h2
              subst h1
              exact ih _ loads2 _ s4 tr4 (armInterrupts_WF sdr hwf2) hrec

/-- Helper: `flush_batch` preserves well-formedness. -/
theorem flushBatch_WF (s : Vring) (hAE hUF : Nat) (hwf : VringWF s) :
    VringWF (flushBatch s hAE hUF) := by
  rw [flushBatch]
  split
  · exact hwf
  · have hfold : ∀ (batch : List Nat) (t : Vring), VringWF t →
        VringWF (batch.foldl (fun t h =>
          { t with
            availRing := fun j => if j = (t.availHead &&& (t.size - 1)) then h else t.availRing j
            availHead := (t.availHead + 1) % 65536 }) t) := by
      intro batch
      induction batch with
      | nil =>
        intro t hwt
        exact hwt
      | cons x xs ihb =>
        intro t hwt
        exact ihb _ (VringWF_of_eq t _ hwt rfl (Or.inl (Nat.mod_lt _ (by omega)))
          (Or.inr rfl) (Or.inr rfl) (Or.inr rfl) rfl rfl rfl rfl)
    have hw1 := hfold s.batch s hwf
    refine vringKick_WF _ hAE hUF (VringWF_of_eq _ _ hw1 rfl (Or.inr rfl) (Or.inr rfl)
      (Or.inl ?_) (Or.inr rfl) rfl rfl rfl rfl)
    exact hw1.2.1

/-- Helper: the posting loop of `vring::post` preserves well-formedness. -/
theorem postMany_WF (chains : List (List VBuffer)) : ∀ s s2 : Vring, VringWF s →
    (∀ c ∈ chains, c ≠ ([] : List VBuffer)) → postMany s chains = some s2 →
    VringWF s2 := by
  induction chains with
  | nil =>
    intro s s2 hwf _ h
    simp only [postMany] at h
    injection h with h
    subst h
    exact hwf
  | cons c cs ih =>
    intro s s2 hwf hne h
    simp only [postMany] at h
    split at h
    · exact absurd h (by simp)
    next s1 h1 =>
      exact ih s1 s2 (postOne_spec s c s1 hwf (hne c (by simp)) h1).1
        (fun d hd => hne d (by simp [hd])) h

/-- Helper: `vring::post` preserves well-formedness. -/
theorem vringPost_WF (s : Vring) (chains : List (List VBuffer)) (hAE hUF : Nat)
    (loads : List Nat) (elems : List UsedElem) (fuel : Nat) (s2 : Vring)
    (hwf : VringWF s) (hne : ∀ c ∈ chains, c ≠ ([] : List VBuffer))
    (hrun : vringPost s chains hAE hUF loads elems fuel = some s2) : VringWF s2 := by
  simp only [vringPost] at hrun
  split at hrun
  · exact absurd hrun (by simp)
  next s1 h1 =>
    have hwf1 := postMany_WF chains s s1 hwf hne h1
    split at hrun
    · split at hrun
      · exact absurd hrun (by simp)
      next s4 tr h4 =>
        injection hrun with h
        subst h
        exact doComplete_WF fuel _ loads elems s4 tr
          (vringKick_WF { s1 with availIdx := s1.availHead } hAE hUF
            (VringWF_of_eq s1 { s1 with availIdx := s1.availHead } hwf1 rfl
              (Or.inr rfl) (Or.inr rfl) (Or.inl hwf1.2.1) (Or.inr rfl)
              rfl rfl rfl rfl)) h4
    · split at hrun
      · injection hrun with h
        subst h
        exact flushBatch_WF s1 hAE hUF hwf1
      · injection hrun with h
        subst h
        exact hwf1

/-- Helper: the free list written by `vring::setup` (every descriptor's
`next` pointing at its successor) traverses to `[cur, cur+1, ..., n-1]`. -/
theorem freeSeqGo_init (descs : Nat → VDesc) (n : Nat)
    (hnext : ∀ i, i < n → (descs i).next = i + 1) :
    ∀ (f cur : Nat), 1 ≤ f → cur + f = n →
    freeSeqGo descs (n - 1) cur f = some (List.range' cur f) := by
  intro f
  induction f with
  | zero =>
    intro cur h1 _
    exact absurd h1 (by omega)
  | succ f ih =>
    intro cur _ hsum
    by_cases hf : f = 0
    · subst hf
      have hcur : cur = n - 1 := by omega
      simp only [freeSeqGo, if_pos hcur]
      simp [List.range']
    · have hne : cur ≠ n - 1 := by omega
      simp only [freeSeqGo, if_neg hne, hnext cur (by omega),
        ih (cur + 1) (by omega) (by omega)]
      simp [List.range']

/-- Helper: the `next` pointers after `vring::setup` link `i` to `i + 1`. -/
theorem vringInit_next (n : Nat) (ei pm : Bool) :
    ∀ i, i < n → ((vringInit n ei pm).descs i).next = i + 1 := by
  intro i hi
  simp only [vringInit, vringSetup, vringBlank]
  rw [if_pos hi]

/-- Helper: the free list right after construction is `[0, 1, ..., n-1]`. -/
theorem vringInit_freeSeq (n : Nat) (ei pm : Bool) (hn : 1 ≤ n) :
    freeSeq (vringInit n ei pm) = some (List.range n) := by
  have hlast : (vringInit n ei pm).freeLast = some (n - 1) := by
    simp only [vringInit, vringSetup, vringBlank]
    rw [if_neg (by omega)]
  refine freeSeq_build _ 0 (n - 1) (List.range n) rfl hlast ?_
  rw [List.range_eq_range']
  exact freeSeqGo_init _ n (vringInit_next n ei pm) n 0 hn (by omega)

/-- Helper: the constructed vring is well-formed. -/
theorem vringInit_WF (k : Nat) (ei pm : Bool) (hk : k ≤ 15) :
    VringWF (vringInit (2 ^ k) ei pm) := by
  refine ⟨⟨k, hk, rfl⟩, show (0 : Nat) < 65536 by decide,
    show (0 : Nat) < 65536 by decide, show (0 : Nat) < 65536 by decide,
    show (0 : Nat) < 65536 by decide, List.range (2 ^ k), [], ?_, rfl, ?_⟩
  · exact vringInit_freeSeq (2 ^ k) ei pm Nat.one_le_two_pow
  · simp only [List.flatten_nil, List.append_nil]
    exact List.Perm.refl _

/-- Helper: every reachable vring state is well-formed; in particular its
free list and its outstanding chains partition the descriptor indices. -/
theorem reachable_WF (s : Vring) (h : Reachable s) : VringWF s := by
  induction h with
  | init k ei pm hk => exact vringInit_WF k ei pm hk
  | post chains hAE hUF loads elems fuel _ hne hrun ih =>
    exact vringPost_WF _ chains hAE hUF loads elems fuel _ ih hne hrun
  | complete loads elems fuel tr _ hrun ih =>
    exact doComplete_WF fuel _ loads elems _ _ ih hrun
  | flush hAE hUF _ ih => exact flushBatch_WF _ hAE hUF ih

/-- Helper: masking a 16-bit value with `2^k - 1` (for `k <= 16`) reduces it
mod `2^k`. -/
theorem masked_mod (x k : Nat) (hk : k ≤ 16) :
    (x % 65536) &&& (2 ^ k - 1) = x % 2 ^ k := by
  have hdvd : (2 : Nat) ^ k ∣ 65536 := by
    have h := Nat.pow_dvd_pow 2 hk
    norm_num at h
    exact h
  rw [Nat.and_pow_two_sub_one_eq_mod]
  exact Nat.mod_mod_of_dvd x hdvd

/-- Helper: adding a nonzero offset smaller than the modulus changes the
residue. -/
theorem mod_add_ne (h d n : Nat) (hd0 : 0 < d) (hdn : d < n) :
    (h + d) % n ≠ h % n := by
  intro hEq
  have hrw : (h + d) % n = (h % n + d) % n := by
    conv_lhs => rw [Nat.add_mod]
    rw [Nat.mod_eq_of_lt hdn]
  rw [hrw] at hEq
  have hm : h % n < n := Nat.mod_lt _ (by omega)
  rcases Nat.lt_or_ge (h % n + d) n with hlt | hge
  · rw [Nat.mod_eq_of_lt hlt] at hEq
    omega
  · rw [Nat.mod_eq_sub_mod hge, Nat.mod_eq_of_lt (by omega)] at hEq
    omega

/-- Helper: `SameDataFields` is reflexive. -/
theorem sameDataFields_refl (a : Vring) : SameDataFields a a :=
  ⟨rfl, rfl, rfl, rfl, rfl, rfl, rfl, rfl, rfl, rfl, rfl, rfl, rfl⟩

/-- Helper: `SameDataFields` is transitive. -/
theorem sameDataFields_trans {a b c : Vring} (h1 : SameDataFields a b)
    (h2 : SameDataFields b c) : SameDataFields a c := by
  obtain ⟨a1, a2, a3, a4, a5, a6, a7, a8, a9, a10, a11, a12, a13⟩ := h1
  obtain ⟨b1, b2, b3, b4, b5, b6, b7, b8, b9, b10, b11, b12, b13⟩ := h2
  exact ⟨a1.trans b1, a2.trans b2, a3.trans b3, a4.trans b4, a5.trans b5,
    a6.trans b6, a7.trans b7, a8.trans b8, a9.trans b9, a10.trans b10,
    a11.trans b11, a12.trans b12, a13.trans b13⟩

/-- Helper: `vring::kick` only touches `_notified` and
`_avail_added_since_kick`. -/
theorem vringKick_data (s : Vring) (hAE hUF : Nat) :
    SameDataFields (vringKick s hAE hUF) s := by
  simp only [vringKick]
  split
  · split
    · exact ⟨rfl, rfl, rfl, rfl, rfl, rfl, rfl, rfl, rfl, rfl, rfl, rfl, rfl⟩
    · exact sameDataFields_refl s
  · split
    · exact sameDataFields_refl s
    · exact ⟨rfl, rfl, rfl, rfl, rfl, rfl, rfl, rfl, rfl, rfl, rfl, rfl, rfl⟩

/-- Helper: `vring::disable_interrupts` only touches `avail.flags`. -/
theorem disableInterrupts_data (s : Vring) :
    SameDataFields (disableInterrupts s) s := by
  simp only [disableInterrupts]
  split
  · exact ⟨rfl, rfl, rfl, rfl, rfl, rfl, rfl, rfl, rfl, rfl, rfl, rfl, rfl⟩
  · exact sameDataFields_refl s

/-- Helper: the arming store of `vring::enable_interrupts` only touches
`avail.flags` / `used_event`. -/
theorem armInterrupts_data (s : Vring) :
    SameDataFields (armInterrupts s) s := by
  simp only [armInterrupts]
  split
  · exact ⟨rfl, rfl, rfl, rfl, rfl, rfl, rfl, rfl, rfl, rfl, rfl, rfl, rfl⟩
  · exact ⟨rfl, rfl, rfl, rfl, rfl, rfl, rfl, rfl, rfl, rfl, rfl, rfl, rfl⟩

/-- Helper: the buffer-matching `Forall2` only looks at the chain's own
descriptors, so it survives writes outside the chain. -/
theorem forall2_descs_frame (descs descs2 : Nat → VDesc) :
    ∀ (c : List Nat) (bufs : List VBuffer),
    List.Forall₂ (fun d b => (descs d).paddr = b.addr ∧ (descs d).len = b.len ∧
      (descs d).writeable = b.writeable) c bufs →
    (∀ j ∈ c, descs2 j = descs j) →
    List.Forall₂ (fun d b => (descs2 d).paddr = b.addr ∧ (descs2 d).len = b.len ∧
      (descs2 d).writeable = b.writeable) c bufs := by
  intro c bufs h
  induction h with
  | nil => exact fun _ => List.Forall₂.nil
  | cons hR hF ih =>
    intro hfr
    refine List.Forall₂.cons ?_ (ih (fun j hj => hfr j (by simp [hj])))
    rw [hfr _ (by simp)]
    exact hR

/-- Helper: if every buffer of the chain is read-only, so is every descriptor
matched against it. -/
theorem forall2_txq_writeable (descs : Nat → VDesc) :
    ∀ (c : List Nat) (bufs : List VBuffer),
    List.Forall₂ (fun d b => (descs d).paddr = b.addr ∧ (descs d).len = b.len ∧
      (descs d).writeable = b.writeable) c bufs →
    (∀ b ∈ bufs, b.writeable = false) →
    ∀ d ∈ c, (descs d).writeable = false := by
  intro c bufs h
  induction h with
  | nil => exact fun _ d hd => absurd hd (by simp)
  | cons hR hF ih =>
    intro hb d hd
    rcases List.mem_cons.mp hd with h1 | h2
    · subst h1
      rw [hR.2.2]
      exact hb _ (by simp)
    · exact ih (fun x hx => hb x (by simp [hx])) d h2

/-- Helper: with the host idle (`used.idx` loaded twice equal to `_tail`)
and no used entries, `do_complete` drains nothing and returns after
disabling and re-arming interrupts. -/
theorem doComplete_quiet (s : Vring) (hpm : s.pollMode = false)
    (ht : s.usedTail < 65536) :
    ∃ tr, doComplete s [s.usedTail, s.usedTail] [] 1 =
      some (armInterrupts (disableInterrupts s), tr) := by
  obtain ⟨_, _, _, _, _, hdpm, _, hdut, _⟩ := disableInterrupts_data s
  obtain ⟨_, _, _, _, _, _, _, haut, _⟩ := armInterrupts_data (disableInterrupts s)
  simp only [doComplete, doCompleteAux, List.length_nil, List.take_nil, drainN]
  rw [Nat.mod_eq_of_lt ht, hdut]
  rw [if_pos (by omega)]
  rw [if_neg (by rw [hdpm, hpm]; exact Bool.false_ne_true)]
  rw [if_pos (by rw [haut, hdut])]
  exact ⟨_, rfl⟩

/-- Helper: one `qp::txq::post` against an idle host from a well-formed
interrupt-mode ring: the published chain, the avail-ring slot, the free-list
consumption and the untouched fields. -/
theorem txqPostIdle_spec (s : Vring) (a hl : Nat) (frags : List NetFragment)
    (s2 : Vring) (hwf : VringWF s) (hpm : s.pollMode = false)
    (hrun : txqPostIdle s a hl frags = some s2) :
    VringWF s2 ∧ s2.pollMode = false ∧ s2.size = s.size ∧
    s2.usedTail = s.usedTail ∧ s2.eventIndex = s.eventIndex ∧
    s2.availHead = (s.availHead + 1) % 65536 ∧
    s2.availIdx = s2.availHead ∧
    s2.availableDescriptors = s.availableDescriptors - (frags.length + 1) ∧
    ∃ head c fl,
      freeSeq s = some fl ∧ fl.head? = some head ∧
      c = fl.take (frags.length + 1) ∧ frags.length + 1 ≤ fl.length ∧
      fl.length ≤ s.size ∧
      freeSeq s2 = some (fl.drop (frags.length + 1)) ∧
      chainSeqGo s2.descs head s.size = some c ∧
      List.Forall₂ (fun d b => (s2.descs d).paddr = b.addr ∧ (s2.descs d).len = b.len ∧
        (s2.descs d).writeable = b.writeable) c (txqChain a hl frags) ∧
      (∀ j, j ∉ c → s2.descs j = s.descs j) ∧
      s2.availRing (s.availHead &&& (s.size - 1)) = head ∧
      (∀ j, j ≠ s.availHead &&& (s.size - 1) → s2.availRing j = s.availRing j) ∧
      s2.outstanding = head :: s.outstanding := by
  have hchne : ∀ ch ∈ [txqChain a hl frags], ch ≠ ([] : List VBuffer) := by
    intro ch hch
    simp only [List.mem_singleton] at hch
    subst hch
    simp [txqChain]
  have hchne1 : txqChain a hl frags ≠ ([] : List VBuffer) := by simp [txqChain]
  have hlenb : (txqChain a hl frags).length = frags.length + 1 := by simp [txqChain]
  simp only [txqPostIdle, txqPost] at hrun
  split at hrun
  case isFalse => exact absurd hrun (by simp)
  case isTrue hsem =>
    have hwfA : VringWF { s with availableDescriptors := s.availableDescriptors - (frags.length + 1) } :=
      VringWF_of_eq s _ hwf rfl (Or.inr rfl) (Or.inr rfl) (Or.inr rfl) (Or.inr rfl) rfl rfl rfl rfl
    have hwf2 : VringWF s2 :=
      vringPost_WF _ _ 0 0 _ _ 1 _ hwfA hchne hrun
    simp only [vringPost] at hrun
    split at hrun
    case h_1 => exact absurd hrun (by simp)
    case h_2 s1 hpm1 =>
    have hpo : postOne { s with availableDescriptors := s.availableDescriptors - (frags.length + 1) } (txqChain a hl frags) = some s1 := by
      simp only [postMany] at hpm1
      split at hpm1
      · exact absurd hpm1 (by simp)
      next st hst =>
        injection hpm1 with h
        subst h
        exact hst
    obtain ⟨Pwf, Psz, Ppm, Pei, Put, Pai, Paf, Pue, Pno, Pad, head, c, fl, Pfl, Phd,
      Pout, Pc, P1f, Pbf, Pfs, Pfl2, Pcsg, Pfa, Pfr, PpmF, PpmT⟩ :=
      postOne_spec _ (txqChain a hl frags) s1 hwfA hchne1 hpo
    have hs1pm : s1.pollMode = false := Ppm.trans hpm
    rw [if_pos hs1pm] at hrun
    have hs3data := vringKick_data { s1 with availIdx := s1.availHead } 0 0
    have hs3pm : (vringKick { s1 with availIdx := s1.availHead } 0 0).pollMode = false := by
      rw [hs3data.2.2.2.2.2.1]
      exact hs1pm
    have hs3ut : (vringKick { s1 with availIdx := s1.availHead } 0 0).usedTail = s.usedTail := by
      rw [hs3data.2.2.2.2.2.2.2.1]
      exact Put.trans rfl
    have hs3utlt : (vringKick { s1 with availIdx := s1.availHead } 0 0).usedTail < 65536 := by
      rw [hs3ut]
      exact hwf.2.2.1
    obtain ⟨tr, hq⟩ := doComplete_quiet _ hs3pm hs3utlt
    rw [hs3ut] at hq
    rw [hq] at hrun
    simp only at hrun
    injection hrun with huq0
    have huq : s2 = armInterrupts (disableInterrupts (vringKick { s1 with availIdx := s1.availHead } 0 0)) := huq0.symm
    have H : SameDataFields (armInterrupts (disableInterrupts (vringKick { s1 with availIdx := s1.availHead } 0 0))) { s1 with availIdx := s1.availHead } :=
      sameDataFields_trans (armInterrupts_data _)
        (sameDataFields_trans (disableInterrupts_data _) hs3data)
    have e1 : s2.descs = s1.descs := by rw [huq]; exact H.1
    have e2 : s2.availRing = s1.availRing := by rw [huq]; exact H.2.1
    have e3 : s2.availHead = s1.availHead := by rw [huq]; exact H.2.2.1
    have e4 : s2.availIdx = s1.availHead := by rw [huq]; exact H.2.2.2.1
    have e5 : s2.size = s1.size := by rw [huq]; exact H.2.2.2.2.1
    have e6 : s2.pollMode = s1.pollMode := by rw [huq]; exact H.2.2.2.2.2.1
    have e7 : s2.eventIndex = s1.eventIndex := by rw [huq]; exact H.2.2.2.2.2.2.1
    have e8 : s2.usedTail = s1.usedTail := by rw [huq]; exact H.2.2.2.2.2.2.2.1
    have e9 : s2.freeHead = s1.freeHead := by rw [huq]; exact H.2.2.2.2.2.2.2.2.1
    have e10 : s2.freeLast = s1.freeLast := by rw [huq]; exact H.2.2.2.2.2.2.2.2.2.1
    have e11 : s2.outstanding = s1.outstanding := by rw [huq]; exact H.2.2.2.2.2.2.2.2.2.2.1
    have e12 : s2.availableDescriptors = s1.availableDescriptors := by
      rw [huq]; exact H.2.2.2.2.2.2.2.2.2.2.2.1
    have hA1 : s1.availHead = (s.availHead + 1) % 65536 := (PpmF hpm).1
    refine ⟨hwf2, e6.trans hs1pm, e5.trans Psz, e8.trans Put, e7.trans Pei,
      e3.trans hA1, e4.trans e3.symm, e12.trans Pad,
      head, c, fl, Pfl, Phd, ?_, ?_, Pfs, ?_, ?_, ?_, ?_, ?_, ?_, ?_⟩
    · rw [Pc, hlenb]
    · rw [← hlenb]; exact Pbf
    · rw [freeSeq_eq_of s2 s1 e1 e9 e10 e5, Pfl2, hlenb]
    · rw [e1]; exact Pcsg
    · rw [e1]; exact Pfa
    · intro j hj
      rw [e1]
      exact Pfr j hj
    · rw [e2]; exact (PpmF hpm).2.1
    · intro j hj
      rw [e2]
      exact (PpmF hpm).2.2.1 j hj
    · rw [e11]; exact Pout

/-- Helper: successive idle-host `qp::txq::post` calls from a well-formed
interrupt-mode ring: the i-th call's chain is published in slot
`avail_head + i`, the chains never overlap (each is carved off the free
list), and earlier publications survive later calls. -/
theorem txqPostManyIdle_spec (ps : List (Nat × Nat × List NetFragment)) :
    ∀ s s2 : Vring, VringWF s → s.pollMode = false →
    txqPostManyIdle s ps = some s2 →
    VringWF s2 ∧ s2.pollMode = false ∧ s2.size = s.size ∧ s2.usedTail = s.usedTail ∧
    s2.availHead = (s.availHead + ps.length) % 65536 ∧
    (ps = [] → s2 = s) ∧
    (ps ≠ [] → s2.availIdx = s2.availHead) ∧
    ∃ fl m, freeSeq s = some fl ∧ m ≤ fl.length ∧ ps.length ≤ m ∧ fl.length ≤ s.size ∧
      freeSeq s2 = some (fl.drop m) ∧
      (∀ j, j ∉ fl.take m → s2.descs j = s.descs j) ∧
      (∀ j, (∀ i, i < ps.length → j ≠ ((s.availHead + i) % 65536) &&& (s.size - 1)) →
        s2.availRing j = s.availRing j) ∧
      ∀ i (hi : i < ps.length), ∃ head c,
        s2.availRing (((s.availHead + i) % 65536) &&& (s.size - 1)) = head ∧
        c.head? = some head ∧
        chainSeqGo s2.descs head s.size = some c ∧
        List.Forall₂ (fun d b => (s2.descs d).paddr = b.addr ∧ (s2.descs d).len = b.len ∧
          (s2.descs d).writeable = b.writeable) c
          (txqChain (ps.get ⟨i, hi⟩).1 (ps.get ⟨i, hi⟩).2.1 (ps.get ⟨i, hi⟩).2.2) := by
  induction ps with
  | nil =>
    intro s s2 hwf hpm hrun
    simp only [txqPostManyIdle] at hrun
    injection hrun with h
    subst h
    obtain ⟨hpow, hah, _, _, _, fl, cs, hfl, hcs, hperm⟩ := hwf
    have hwf2 : VringWF s := ⟨hpow, hah, by assumption, by assumption, by assumption,
      fl, cs, hfl, hcs, hperm⟩
    have hfll : fl.length ≤ s.size := by
      have hle := hperm.length_eq
      simp only [List.length_append, List.length_range] at hle
      omega
    refine ⟨hwf2, hpm, rfl, rfl, by simpa using (Nat.mod_eq_of_lt hah).symm,
      fun _ => rfl, fun hne => absurd rfl hne, fl, 0, hfl, by omega, by simp, hfll,
      by simpa using hfl, by simp, fun j _ => rfl, ?_⟩
    intro i hi
    exact absurd hi (by simp)
  | cons p ps ih =>
    intro s s2 hwf hpm hrun
    simp only [txqPostManyIdle] at hrun
    split at hrun
    case h_1 => exact absurd hrun (by simp)
    case h_2 s1 h1 =>
    obtain ⟨Awf, Apm, Asz, Aut, Aei, Aah, Aai, Aad, head0, c0, fl, Afl, Ahd, Ac, Akf,
      Afs, Afl2, Acsg, Afa, Afr, Aslot, Aring, Aout⟩ :=
      txqPostIdle_spec s p.1 p.2.1 p.2.2 s1 hwf hpm h1
    obtain ⟨Bwf, Bpm, Bsz, But, Bah, Bnil, Bai, fl1, m1, Bfl, Bm1, Bpl, Bfs, Bfl2,
      Bfr, Bring, Bper⟩ := ih s1 s2 Awf Apm hrun
    have hfl1 : fl1 = fl.drop (p.2.2.length + 1) := by
      rw [Afl2] at Bfl
      injection Bfl with h
      exact h.symm
    obtain ⟨⟨k, hk, hszk⟩, hah, hut, hai, hadd, flW, csW, hflW, hcsW, hperm⟩ := hwf
    have hfw : flW = fl := by
      have Afl2c := Afl
      rw [hflW, Option.some.injEq] at Afl2c
      exact Afl2c
    have hndfl : fl.Nodup := by
      have hndall : (flW ++ csW.flatten).Nodup := hperm.nodup_iff.mpr (List.nodup_range s.size)
      obtain ⟨hnd1, _, _⟩ := List.nodup_append.mp hndall
      exact hfw ▸ hnd1
    have Bm1d : m1 ≤ fl.length - (p.2.2.length + 1) := by
      rw [hfl1] at Bm1
      simpa using Bm1
    have hlen2k : ps.length + 1 ≤ 2 ^ k := by
      rw [← hszk]
      omega
    have hAH : s2.availHead = (s.availHead + (ps.length + 1)) % 65536 := by
      rw [Bah, Aah, Nat.mod_add_mod]
      have harg : s.availHead + 1 + ps.length = s.availHead + (ps.length + 1) := by omega
      rw [harg]
    have hAI : s2.availIdx = s2.availHead := by
      by_cases hps : ps = []
      · rw [Bnil hps]
        exact Aai
      · exact Bai hps
    have htake : fl.take (p.2.2.length + 1 + m1) = fl.take (p.2.2.length + 1) ++ fl1.take m1 := by
      rw [List.take_add, ← hfl1]
    have hdropEq : freeSeq s2 = some (fl.drop (p.2.2.length + 1 + m1)) := by
      rw [Bfl2, hfl1, List.drop_drop]
    have hdescsframe : ∀ j, j ∉ fl.take (p.2.2.length + 1 + m1) → s2.descs j = s.descs j := by
      intro j hj
      rw [htake] at hj
      have hj1 : j ∉ c0 := fun hc => hj (List.mem_append.mpr (Or.inl (Ac ▸ hc)))
      have hj2 : j ∉ fl1.take m1 := fun hc => hj (List.mem_append.mpr (Or.inr hc))
      exact (Bfr j hj2).trans (Afr j hj1)
    have hringframe : ∀ j,
        (∀ i, i < (p :: ps).length → j ≠ ((s.availHead + i) % 65536) &&& (s.size - 1)) →
        s2.availRing j = s.availRing j := by
      intro j hj
      have hj0 : j ≠ s.availHead &&& (s.size - 1) := by
        have h0 := hj 0 (by simp)
        simpa [Nat.mod_eq_of_lt hah] using h0
      have hjT : ∀ i, i < ps.length → j ≠ ((s1.availHead + i) % 65536) &&& (s1.size - 1) := by
        intro i hilt
        have h2 := hj (i + 1) (by simp only [List.length_cons]; omega)
        rw [Aah, Asz, Nat.mod_add_mod]
        have harg : s.availHead + 1 + i = s.availHead + (i + 1) := by omega
        rw [harg]
        exact h2
      exact (Bring j hjT).trans (Aring j hj0)
    have hper : ∀ i (hi : i < (p :: ps).length), ∃ head c,
        s2.availRing (((s.availHead + i) % 65536) &&& (s.size - 1)) = head ∧
        c.head? = some head ∧
        chainSeqGo s2.descs head s.size = some c ∧
        List.Forall₂ (fun d b => (s2.descs d).paddr = b.addr ∧ (s2.descs d).len = b.len ∧
          (s2.descs d).writeable = b.writeable) c
          (txqChain ((p :: ps).get ⟨i, hi⟩).1 ((p :: ps).get ⟨i, hi⟩).2.1
            ((p :: ps).get ⟨i, hi⟩).2.2) := by
      intro i hi
      cases i with
      | zero =>
        have hslot0 : ((s.availHead + 0) % 65536) &&& (s.size - 1) =
            s.availHead &&& (s.size - 1) := by
          rw [Nat.add_zero, Nat.mod_eq_of_lt hah]
        have hdistinct : ∀ i2, i2 < ps.length →
            s.availHead &&& (s.size - 1) ≠ ((s1.availHead + i2) % 65536) &&& (s1.size - 1) := by
          intro i2 hi2
          rw [Aah, Asz, Nat.mod_add_mod, hszk]
          rw [show s.availHead &&& (2 ^ k - 1) = (s.availHead % 65536) &&& (2 ^ k - 1) from by
            rw [Nat.mod_eq_of_lt hah]]
          rw [masked_mod s.availHead k (by omega),
            masked_mod (s.availHead + 1 + i2) k (by omega)]
          rw [Nat.add_assoc]
          intro hEq
          exact mod_add_ne s.availHead (1 + i2) (2 ^ k) (by omega) (by omega) hEq.symm
        have hsv : s2.availRing (s.availHead &&& (s.size - 1)) = head0 :=
          (Bring _ hdistinct).trans Aslot
        have hc0sub : ∀ j ∈ c0, j ∉ fl1.take m1 := by
          intro j hjc hjin
          have hj1 : j ∈ fl.take (p.2.2.length + 1) := Ac ▸ hjc
          have hj2 : j ∈ fl.drop (p.2.2.length + 1) :=
            List.take_subset _ _ (hfl1 ▸ hjin)
          have hnd2 : (fl.take (p.2.2.length + 1) ++ fl.drop (p.2.2.length + 1)).Nodup := by
            rw [List.take_append_drop]
            exact hndfl
          obtain ⟨_, _, hdisj⟩ := List.nodup_append.mp hnd2
          exact hdisj hj1 hj2
        have hc0frame : ∀ j ∈ c0, s2.descs j = s1.descs j := fun j hj => Bfr j (hc0sub j hj)
        refine ⟨head0, c0, ?_, ?_, ?_, ?_⟩
        · rw [hslot0]
          exact hsv
        · exact (chainSeqGo_structure s1.descs s.size head0 Acsg).2.1
        · exact chainSeqGo_frame s1.descs s2.descs s.size head0 Acsg hc0frame
        · exact forall2_descs_frame s1.descs s2.descs c0 (txqChain p.1 p.2.1 p.2.2) Afa hc0frame
      | succ i2 =>
        have hi2 : i2 < ps.length := by
          simp only [List.length_cons] at hi
          omega
        obtain ⟨head, c, Bslot, Bhd, Bcsg, Bfa2⟩ := Bper i2 hi2
        have hidx : ((s.availHead + (i2 + 1)) % 65536) &&& (s.size - 1) =
            ((s1.availHead + i2) % 65536) &&& (s1.size - 1) := by
          rw [Aah, Asz, Nat.mod_add_mod]
          have harg : s.availHead + 1 + i2 = s.availHead + (i2 + 1) := by omega
          rw [harg]
        refine ⟨head, c, ?_, Bhd, ?_, ?_⟩
        · rw [hidx]
          exact Bslot
        · rw [← Asz]
          exact Bcsg
        · exact Bfa2
    refine ⟨Bwf, Bpm, Bsz.trans Asz, But.trans Aut, hAH, fun h => absurd h (by simp),
      fun _ => hAI, fl, p.2.2.length + 1 + m1, Afl, by omega,
      by simp only [List.length_cons]; omega, Afs, hdropEq, hdescsframe, hringframe, hper⟩

/-- C1, counterexample.  The claim states that with `EVENT_IDX` negotiated the
driver notifies if and only if `(uint16_t)(avail.idx - avail_event - 1) <
avail_added_since_kick`.  At `avail.idx = 0`, `avail_event = 0`,
`avail_added_since_kick = 32767` the condition compares `65535 < 32767`, which
is false, yet `vring::kick` notifies because of its latency-bound override
`_avail_added_since_kick >= (uint16_t)(~0) / 2`. -/
theorem claim1_kick_iff_counterexample :
    ¬ (((0 : Nat) + 2 * 65536 - 0 % 65536 - 1) % 65536 < 32767) ∧
    (vringKick ({ vringInit 4 true false with availAddedSinceKick := 32767 }) 0 0).notified =
      ({ vringInit 4 true false with availAddedSinceKick := 32767 } : Vring).notified + 1 := by
  decide

/-- C1, amended.  With `EVENT_IDX` negotiated, `vring::kick` notifies iff
`(uint16_t)(avail.idx - avail_event - 1) < avail_added_since_kick` OR
`avail_added_since_kick >= 32767`; in particular with
`avail_event = avail.idx - 1 - k` for `0 <= k < avail_added_since_kick` a kick
occurs, and with `avail_event = avail.idx` and `avail_added_since_kick <
32767` no kick occurs. -/
theorem claim1_kick_eventidx_amended (s : Vring) (hAE hUF : Nat)
    (hei : s.eventIndex = true) (hidx : s.availIdx < 65536)
    (hadd : s.availAddedSinceKick < 65536) :
    ((vringKick s hAE hUF).notified = s.notified + 1 ↔
      ((s.availIdx + 2 * 65536 - hAE % 65536 - 1) % 65536 < s.availAddedSinceKick ∨
        32767 ≤ s.availAddedSinceKick)) ∧
    (∀ k, k < s.availAddedSinceKick →
      hAE % 65536 = (s.availIdx + 2 * 65536 - 1 - k) % 65536 →
      (vringKick s hAE hUF).notified = s.notified + 1) ∧
    (hAE % 65536 = s.availIdx → s.availAddedSinceKick < 32767 →
      (vringKick s hAE hUF).notified = s.notified) := by
  simp only [vringKick, hei, if_true]
  refine ⟨?_, ?_, ?_⟩
  · split
    next h => exact iff_of_true rfl h
    next h => exact iff_of_false (by omega) h
  · intro k hk he
    have hcond : (s.availIdx + 2 * 65536 - hAE % 65536 - 1) % 65536 < s.availAddedSinceKick := by
      rw [he]; omega
    rw [if_pos (Or.inl hcond)]
  · intro he hlt
    have hcond : ¬ (((s.availIdx + 2 * 65536 - hAE % 65536 - 1) % 65536 < s.availAddedSinceKick) ∨
        32767 ≤ s.availAddedSinceKick) := by
      rw [he]; omega
    rw [if_neg hcond]

/-- C1, amended, witness: `avail.idx = 5`, `avail_event = 4 = avail.idx - 1`,
`avail_added_since_kick = 3`, so a kick occurs. -/
theorem claim1_kick_eventidx_amended_witness :
    (vringKick ({ vringInit 4 true false with availIdx := 5, availAddedSinceKick := 3 }) 4 0).notified =
      ({ vringInit 4 true false with availIdx := 5, availAddedSinceKick := 3 } : Vring).notified + 1 :=
  (claim1_kick_eventidx_amended
    ({ vringInit 4 true false with availIdx := 5, availAddedSinceKick := 3 }) 4 0
    rfl (by decide) (by decide)).2.1 0 (by decide) (by decide)

/-- C7, counterexample.  The claim states that `avail_added_since_kick >= 2^15`
forces a notify regardless of the host's `NO_NOTIFY` flag; but without
`EVENT_IDX`, `vring::kick` returns before its latency-bound check when the
host set `NO_NOTIFY`, so no notify happens even at `avail_added_since_kick =
32768 = 2^15`. -/
theorem claim7_latency_kick_counterexample :
    (32768 : Nat) = 2 ^ 15 ∧
    (vringKick ({ vringInit 4 false false with availAddedSinceKick := 32768 }) 0
        VRING_USED_F_NO_NOTIFY).notified =
      ({ vringInit 4 false false with availAddedSinceKick := 32768 } : Vring).notified := by
  decide

/-- C7, amended.  With `EVENT_IDX` negotiated, `avail_added_since_kick >= 2^15`
(indeed `>= 32767`) forces a notify regardless of the event-index condition;
without `EVENT_IDX` a notify happens iff the host's `NO_NOTIFY` bit is clear
(regardless of the counter); and every notify resets `avail_added_since_kick`
to zero. -/
theorem claim7_latency_kick_amended (s : Vring) (hAE hUF : Nat) :
    (s.eventIndex = true → 2 ^ 15 ≤ s.availAddedSinceKick →
      (vringKick s hAE hUF).notified = s.notified + 1 ∧
      (vringKick s hAE hUF).availAddedSinceKick = 0) ∧
    (s.eventIndex = false →
      ((vringKick s hAE hUF).notified = s.notified + 1 ↔
        hUF &&& VRING_USED_F_NO_NOTIFY = 0)) ∧
    ((vringKick s hAE hUF).notified = s.notified + 1 →
      (vringKick s hAE hUF).availAddedSinceKick = 0) := by
  cases hei : s.eventIndex with
  | true =>
    simp only [vringKick, hei, if_true]
    refine ⟨fun _ hge => ?_, fun h => by simp at h, ?_⟩
    · rw [if_pos (Or.inr (by omega))]
      exact ⟨rfl, rfl⟩
    · split
      · exact fun _ => rfl
      · intro h; omega
  | false =>
    simp only [vringKick, hei, Bool.false_eq_true, if_false]
    refine ⟨fun h => by simp at h, fun _ => ?_, ?_⟩
    · split
      next h =>
        simp only [ne_eq, not_not] at h
        constructor
        · intro habs; omega
        · intro habs; exact absurd habs h
      next h =>
        simp only [ne_eq, not_not] at h
        simpa using h
    · split
      · intro h; omega
      · exact fun _ => rfl

/-- C7, amended, witness: with `EVENT_IDX` on and the counter at `2^15`, the
kick happens and the counter is reset. -/
theorem claim7_latency_kick_amended_witness :
    (vringKick ({ vringInit 4 true false with availAddedSinceKick := 32768 }) 0 0).notified =
      ({ vringInit 4 true false with availAddedSinceKick := 32768 } : Vring).notified + 1 ∧
    (vringKick ({ vringInit 4 true false with availAddedSinceKick := 32768 }) 0 0).availAddedSinceKick = 0 :=
  (claim7_latency_kick_amended
    ({ vringInit 4 true false with availAddedSinceKick := 32768 }) 0 0).1 rfl (by decide)

/-- C6, counterexample.  The claim states that any oversized TCP packet gets
the GSO fields whenever the TSO feature is on; but the whole offload block of
`qp::txq::post` is nested under `hw_features().tx_csum_l4_offload`, so with
checksum offload disabled and TSO enabled a 9000-byte TCP packet (mtu 1500)
keeps `gso_type = gso_none`. -/
theorem claim6_gso_counterexample :
    ({ txCsumL4Offload := false, rxCsumOffload := false, txTso := true, txUfo := true,
       mtu := 1500 } : HwFeatures).txTso = true ∧
    ({ txCsumL4Offload := false, rxCsumOffload := false, txTso := true, txUfo := true,
       mtu := 1500 } : HwFeatures).mtu + ethHdrLen < 9000 ∧
    (buildVNetHeader
        { txCsumL4Offload := false, rxCsumOffload := false, txTso := true, txUfo := true, mtu := 1500 }
        { protocol := ipProtocolTcp, needsCsum := true, ipHdrLen := 20, tcpHdrLen := 20, udpHdrLen := 8 }
        9000).gsoType ≠ gso_tcpv4 := by
  decide

/-- C6, amended.  For a packet longer than `mtu + eth_hdr_len`, IF TX L4
checksum offload is enabled AND the matching feature (`tx_tso` for TCP,
`tx_ufo` for UDP) is on, `qp::txq::post` sets `gso_type` to GSO_TCPv4 /
GSO_UDP, `hdr_len = eth_hdr_len + ip_hdr_len + l4_hdr_len` and `gso_size =
mtu - ip_hdr_len - l4_hdr_len` (both as 16-bit stores); the 9000-byte TCP
example with TSO and csum on and mtu 1500 yields `needs_csum = 1`,
`csum_start = 34`, `csum_offset = 16`, `gso_type = GSO_TCPv4`,
`hdr_len = 54`, `gso_size = 1460`. -/
theorem claim6_gso_amended (hw : HwFeatures) (oi : OffloadInfo) (pLen : Nat)
    (hcs : hw.txCsumL4Offload = true) :
    (oi.protocol = ipProtocolTcp → hw.txTso = true → hw.mtu + ethHdrLen < pLen →
      (buildVNetHeader hw oi pLen).gsoType = gso_tcpv4 ∧
      (buildVNetHeader hw oi pLen).hdrLen = (ethHdrLen + oi.ipHdrLen + oi.tcpHdrLen) % 65536 ∧
      (buildVNetHeader hw oi pLen).gsoSize = (hw.mtu + 2 * 65536 - oi.ipHdrLen - oi.tcpHdrLen) % 65536) ∧
    (oi.protocol = ipProtocolUdp → hw.txUfo = true → hw.mtu + ethHdrLen < pLen →
      (buildVNetHeader hw oi pLen).gsoType = gso_udp ∧
      (buildVNetHeader hw oi pLen).hdrLen = (ethHdrLen + oi.ipHdrLen + oi.udpHdrLen) % 65536 ∧
      (buildVNetHeader hw oi pLen).gsoSize = (hw.mtu + 2 * 65536 - oi.ipHdrLen - oi.udpHdrLen) % 65536) ∧
    buildVNetHeader
        { txCsumL4Offload := true, rxCsumOffload := true, txTso := true, txUfo := true, mtu := 1500 }
        { protocol := ipProtocolTcp, needsCsum := true, ipHdrLen := 20, tcpHdrLen := 20, udpHdrLen := 8 }
        9000 =
      { needsCsum := true, gsoType := gso_tcpv4, hdrLen := 54, gsoSize := 1460,
        csumStart := 34, csumOffset := 16, numBuffers := 0 } := by
  refine ⟨?_, ?_, by decide⟩
  · intro hp htso hlen
    simp only [buildVNetHeader, hcs, if_true, hp, ipProtocolTcp, if_pos (And.intro htso hlen)]
    exact ⟨trivial, trivial, trivial⟩
  · intro hp hufo hlen
    simp only [buildVNetHeader, hcs, if_true, hp, ipProtocolTcp, ipProtocolUdp]
    rw [if_neg (by decide : ¬ (17 : Nat) = 6), if_pos (And.intro hufo hlen)]
    exact ⟨rfl, rfl, rfl⟩

/-- C6, amended, witness: the 9000-byte TCP example. -/
theorem claim6_gso_amended_witness :
    (buildVNetHeader
        { txCsumL4Offload := true, rxCsumOffload := true, txTso := true, txUfo := true, mtu := 1500 }
        { protocol := ipProtocolTcp, needsCsum := true, ipHdrLen := 20, tcpHdrLen := 20, udpHdrLen := 8 }
        9000).gsoType = gso_tcpv4 :=
  ((claim6_gso_amended
    { txCsumL4Offload := true, rxCsumOffload := true, txTso := true, txUfo := true, mtu := 1500 }
    { protocol := ipProtocolTcp, needsCsum := true, ipHdrLen := 20, tcpHdrLen := 20, udpHdrLen := 8 }
    9000 rfl).1 rfl rfl (by decide)).1

/-- C8.  For a power-of-two ring size `N`, the used region sits at
`align_up(avail_offset + avail_size, 4096)` with `avail_size = 6 + N*2 + 2`
bytes (the code aligns from `avail + 2N + 6`, but no 4096 boundary can fall
strictly inside `(18N + 6, 18N + 8]` for a power of two, so the offsets
coincide), the per-queue allocation is `3*4096 + N*26` bytes, and the storage
is zero-initialised. -/
theorem claim8_layout (N : Nat) (hpow : ∃ k, N = 2 ^ k) :
    (common_config_offsets N).usedOff =
      align_up ((common_config_offsets N).availOff + (6 + N * 2 + 2)) 4096 ∧
    vring_storage_size N = 3 * 4096 + N * 26 ∧
    virtio_buffer (vring_storage_size N) = List.replicate (3 * 4096 + N * 26) 0 := by
  obtain ⟨k, rfl⟩ := hpow
  refine ⟨?_, by simp [vring_storage_size], by simp [virtio_buffer, vring_storage_size]⟩
  cases k with
  | zero => decide
  | succ j =>
    have hd : 2 ^ (j + 1) = 2 * 2 ^ j := by ring
    simp only [common_config_offsets, align_up, hd]
    omega

/-- C8, witness: the default ring size 256. -/
theorem claim8_layout_witness :
    (common_config_offsets 256).usedOff =
      align_up ((common_config_offsets 256).availOff + (6 + 256 * 2 + 2)) 4096 ∧
    vring_storage_size 256 = 3 * 4096 + 256 * 26 ∧
    virtio_buffer (vring_storage_size 256) = List.replicate (3 * 4096 + 256 * 26) 0 :=
  claim8_layout 256 ⟨8, rfl⟩

/-- C9.  Every options map produced by the driver's own option description
carries an `event-index` entry (the option has a default value, "on"), so
`config_ring_size` returns the `virtio-ring-size` value (default 256) and
`qp_vhost` sizes both rings with it. -/
theorem claim9_ring_size_option (u : UserOptions) :
    config_ring_size (optionsMapOf u) = u.virtioRingSize.getD 256 ∧
    qp_vhost_ring_sizes (optionsMapOf u) =
      (u.virtioRingSize.getD 256, u.virtioRingSize.getD 256) ∧
    config_ring_size (optionsMapOf { eventIndex := none, virtioRingSize := none }) = 256 ∧
    (optionsMapOf u).eventIndexCount = 1 ∧
    (optionsMapOf { eventIndex := none, virtioRingSize := none }).eventIndexValue = OnOff.on := by
  refine ⟨rfl, rfl, rfl, rfl, rfl⟩

/-- C10.  When a completion starts a new packet, the first fragment length is
the unguarded `size_t` subtraction `len - header_len`: no branch of
`qp::rxq::prepare_buffers` checks `len >= header_len`, so for
`len >= header_len` the fragment length is `len - header_len`, while for
`len < header_len` it wraps to `len + 2^64 - header_len`, at least
`2^64 - header_len`. -/
theorem claim10_rx_len_underflow (s : RxqState) (buf len m : Nat)
    (hidle : s.remainingBuffers = 0) (hm : 1 ≤ m)
    (hlen : len < 2 ^ 64) (hhdr : s.headerLen ≤ 2 ^ 64) :
    (s.headerLen ≤ len → ∃ s2, rxqComplete s buf len m = some s2 ∧
      s2.fragments = [{ buf := buf, off := s.headerLen, len := len - s.headerLen }]) ∧
    (len < s.headerLen → ∃ s2, rxqComplete s buf len m = some s2 ∧
      s2.fragments = [{ buf := buf, off := s.headerLen, len := len + 2 ^ 64 - s.headerLen }] ∧
      2 ^ 64 - s.headerLen ≤ len + 2 ^ 64 - s.headerLen) := by
  have hm0 : m ≠ 0 := by omega
  constructor
  · intro hge
    refine ⟨_, by simp only [rxqComplete, hidle, if_true, hm0, if_false]; rfl, ?_⟩
    have hmod : (len + 2 ^ 64 - s.headerLen) % 2 ^ 64 = len - s.headerLen := by omega
    simp only [rxqAppend, hmod]
    split <;> simp
  · intro hlt
    refine ⟨_, by simp only [rxqComplete, hidle, if_true, hm0, if_false]; rfl, ?_, ?_⟩
    · have hmod : (len + 2 ^ 64 - s.headerLen) % 2 ^ 64 = len + 2 ^ 64 - s.headerLen := by omega
      simp only [rxqAppend, hmod]
      split <;> simp
    · omega

/-- Helper: `completeOne` only touches the used tail, the completions table,
the descriptor table and the free list. -/
theorem completeOne_fields (s : Vring) (e : UsedElem) (s1 : Vring)
    (h : completeOne s e = some s1) :
    s1.pollMode = s.pollMode ∧ s1.eventIndex = s.eventIndex ∧ s1.size = s.size ∧
    s1.availHead = s.availHead ∧ s1.availIdx = s.availIdx ∧ s1.availRing = s.availRing ∧
    s1.availFlags = s.availFlags ∧ s1.usedEvent = s.usedEvent ∧ s1.batch = s.batch ∧
    s1.notified = s.notified ∧ s1.availAddedSinceKick = s.availAddedSinceKick ∧
    s1.availableDescriptors = s.availableDescriptors ∧
    s1.usedTail = (s.usedTail + 1) % 65536 := by
  simp only [completeOne] at h
  split at h
  · split at h
    · injection h with h
      subst h
      cases hq : s.freeLast <;> simp [hq]
    · exact absurd h (by simp)
  · exact absurd h (by simp)

/-- Helper: `drainN` only touches the used tail, the completions table, the
descriptor table and the free list. -/
theorem drainN_fields (elems : List UsedElem) : ∀ s s1 : Vring,
    drainN s elems = some s1 →
    s1.pollMode = s.pollMode ∧ s1.eventIndex = s.eventIndex ∧ s1.size = s.size ∧
    s1.availHead = s.availHead ∧ s1.availIdx = s.availIdx ∧ s1.availRing = s.availRing ∧
    s1.availFlags = s.availFlags ∧ s1.usedEvent = s.usedEvent ∧ s1.batch = s.batch ∧
    s1.notified = s.notified ∧ s1.availAddedSinceKick = s.availAddedSinceKick ∧
    s1.availableDescriptors = s.availableDescriptors := by
  induction elems with
  | nil =>
    intro s s1 h
    simp only [drainN] at h
    injection h with h
    subst h
    exact ⟨rfl, rfl, rfl, rfl, rfl, rfl, rfl, rfl, rfl, rfl, rfl, rfl⟩
  | cons e rest ih =>
    intro s s1 h
    simp only [drainN] at h
    split at h
    · exact absurd h (by simp)
    next smid hmid =>
      obtain ⟨h1, h2, h3, h4, h5, h6, h7, h8, h9, h10, h11, h12, _⟩ :=
        completeOne_fields s e smid hmid
      obtain ⟨g1, g2, g3, g4, g5, g6, g7, g8, g9, g10, g11, g12⟩ := ih smid s1 h
      exact ⟨g1.trans h1, g2.trans h2, g3.trans h3, g4.trans h4, g5.trans h5, g6.trans h6,
        g7.trans h7, g8.trans h8, g9.trans h9, g10.trans h10, g11.trans h11, g12.trans h12⟩

/-- Helper: no notifier wait occurs in one load-drain-arm-fence-reload
segment of `do_complete`. -/
theorem notifyWait_not_mem_seg (v w t : Nat) (elems : List UsedElem) (b : Bool) :
    VEv.notifyWait ∉ (VEv.load v :: List.map (fun e => VEv.drain e.id) elems) ++
      [if b = true then VEv.armEvent t else VEv.armFlags, VEv.fence, VEv.load w] := by
  intro hmem
  rcases List.mem_append.mp hmem with hm | hm
  · rcases List.mem_cons.mp hm with hm2 | hm2
    · exact absurd hm2 (by simp)
    · obtain ⟨e, _, he⟩ := List.mem_map.mp hm2
      exact absurd he (by simp)
  · rcases List.mem_cons.mp hm with hm2 | hm2
    · revert hm2; split <;> simp
    · simp at hm2

/-- C2.  Whenever `do_complete` returns in interrupt mode, the arm word has
been set (`avail.flags` cleared without event-index, `used_event` equal to
`_used._tail` with it), the seq-cst fence was issued after the arming store,
and the `used.idx` value loaded after the fence equals `_used._tail`; when a
re-load differs from `_used._tail` the loop instead drains the new entries,
and no notifier wait occurs anywhere inside `do_complete`. -/
theorem claim2_do_complete_rearm (s : Vring) (loads : List Nat) (elems : List UsedElem)
    (fuel : Nat) (s2 : Vring) (tr : List VEv)
    (hpm : s.pollMode = false)
    (hrun : doComplete s loads elems fuel = some (s2, tr)) :
    s2.pollMode = false ∧ s2.eventIndex = s.eventIndex ∧
    (s.eventIndex = false → s2.availFlags = 0) ∧
    (s.eventIndex = true → s2.usedEvent = s2.usedTail) ∧
    (∃ tr0, tr = tr0 ++ [(if s.eventIndex then VEv.armEvent s2.usedTail else VEv.armFlags),
                         VEv.fence, VEv.load s2.usedTail]) ∧
    VEv.notifyWait ∉ tr := by
  induction fuel generalizing s loads elems s2 tr with
  | zero => exact absurd hrun (by simp [doComplete, doCompleteAux])
  | succ fuel ih =>
    simp only [doComplete, doCompleteAux] at hrun
    rcases loads with _ | ⟨v0, loads1⟩
    · exact absurd hrun (by simp)
    simp only at hrun
    split at hrun
    case isFalse => exact absurd hrun (by simp)
    case isTrue hn =>
      split at hrun
      case h_1 => exact absurd hrun (by simp)
      case h_2 sdr hdr =>
        have hdis : (disableInterrupts s).pollMode = s.pollMode ∧
            (disableInterrupts s).eventIndex = s.eventIndex := by
          simp only [disableInterrupts]; split <;> exact ⟨rfl, rfl⟩
        obtain ⟨d1, d2, _⟩ := drainN_fields _ _ _ hdr
        have hdrpm : sdr.pollMode = false := by rw [d1, hdis.1, hpm]
        have hdrei : sdr.eventIndex = s.eventIndex := by rw [d2, hdis.2]
        rw [if_neg (by rw [hdrpm]; exact Bool.false_ne_true)] at hrun
        have harmpm : (armInterrupts sdr).pollMode = sdr.pollMode ∧
            (armInterrupts sdr).eventIndex = sdr.eventIndex ∧
            (armInterrupts sdr).usedTail = sdr.usedTail ∧
            (sdr.eventIndex = false → (armInterrupts sdr).availFlags = 0) ∧
            (sdr.eventIndex = true → (armInterrupts sdr).usedEvent = sdr.usedTail) := by
          simp only [armInterrupts]
          split
          next hf => exact ⟨rfl, rfl, rfl, fun _ => rfl, fun ht => absurd ht (by simp [hf])⟩
          next hf =>
            refine ⟨rfl, rfl, rfl, fun hfa => absurd hfa hf, fun _ => rfl⟩
        rcases loads1 with _ | ⟨w0, loads2⟩
        · exact absurd hrun (by simp)
        simp only at hrun
        split at hrun
        case isTrue hw =>
          injection hrun with hrun
          injection hrun with hs2 htr
          subst hs2
          subst htr
          refine ⟨by rw [harmpm.1, hdrpm], by rw [harmpm.2.1, hdrei], ?_, ?_, ?_, ?_⟩
          · intro hef
            exact harmpm.2.2.2.1 (by rw [hdrei, hef])
          · intro het
            rw [harmpm.2.2.1]
            exact harmpm.2.2.2.2 (by rw [hdrei]; exact het)
          · refine ⟨VEv.load (v0 % 65536) :: List.map (fun e => VEv.drain e.id)
              (List.take ((v0 % 65536 + 65536 - (disableInterrupts s).usedTail) % 65536) elems), ?_⟩
            have heib : (armInterrupts sdr).eventIndex = s.eventIndex := by
              rw [harmpm.2.1, hdrei]
            rw [heib, hw]
          · exact notifyWait_not_mem_seg _ _ _ _ _
        case isFalse hw =>
          split at hrun
          case h_1 => exact absurd hrun (by simp)
          case h_2 s4 tr4 hrec =>
            injection hrun with hrun
            injection hrun with hs2 htr
            subst hs2
            subst htr
            have harmpm2 : (armInterrupts sdr).pollMode = false := by rw [harmpm.1, hdrpm]
            obtain ⟨c1, c2, c3, c4, c5, c6⟩ := ih (armInterrupts sdr) loads2 (elems.drop _)
              s4 tr4 harmpm2 hrec
            have hei2 : (armInterrupts sdr).eventIndex = s.eventIndex := by
              rw [harmpm.2.1, hdrei]
            refine ⟨c1, c2.trans hei2, fun hef => c3 (by rw [hei2, hef]),
              fun het => c4 (by rw [hei2, het]), ?_, ?_⟩
            · obtain ⟨tr0, htr0⟩ := c5
              rw [hei2] at htr0
              refine ⟨(VEv.load (v0 % 65536) :: List.map (fun e => VEv.drain e.id)
                  (List.take ((v0 % 65536 + 65536 - (disableInterrupts s).usedTail) % 65536) elems)) ++
                  ([if (armInterrupts sdr).eventIndex = true then VEv.armEvent (armInterrupts sdr).usedTail
                    else VEv.armFlags, VEv.fence, VEv.load (w0 % 65536)]) ++ tr0, ?_⟩
              rw [htr0]
              simp [List.append_assoc]
            · intro hmem
              have hflat : VEv.notifyWait ∈
                  ((VEv.load (v0 % 65536) :: List.map (fun e => VEv.drain e.id)
                    (List.take ((v0 % 65536 + 65536 - (disableInterrupts s).usedTail) % 65536) elems)) ++
                   [if (armInterrupts sdr).eventIndex = true then
                      VEv.armEvent (armInterrupts sdr).usedTail else VEv.armFlags,
                    VEv.fence, VEv.load (w0 % 65536)]) ++ tr4 := by
                simpa [List.append_assoc] using hmem
              rcases List.mem_append.mp hflat with hm | hm
              · exact notifyWait_not_mem_seg _ _ _ _ _ hm
              · exact c6 hm

/-- C2, witness: a quiescent event-index ring; `do_complete` arms
`used_event`, fences, re-loads `used.idx` equal to the tail and returns
without waiting. -/
theorem claim2_do_complete_rearm_witness :
    (vringInit 4 true false).pollMode = false ∧
    ∃ p : Vring × List VEv, doComplete (vringInit 4 true false) [0, 0] [] 1 = some p ∧
      p.1.usedEvent = p.1.usedTail ∧ VEv.notifyWait ∉ p.2 := by
  have h := claim2_do_complete_rearm (vringInit 4 true false) [0, 0] [] 1 _ _ rfl rfl
  exact ⟨rfl, _, rfl, h.2.2.2.1 rfl, h.2.2.2.2.2⟩

/-- Helper for C4: while a packet is in progress, each completion appends a
plain `{buf, len}` fragment, and when the counter reaches zero the packet is
delivered and `_fragments.size()` permits are signalled. -/
theorem rxqRun_inProgress (events : List RxEvent) : ∀ s : RxqState,
    s.remainingBuffers = events.length → 1 ≤ events.length →
    ∃ s2, rxqRun s events = some s2 ∧
      s2.headerLen = s.headerLen ∧
      s2.remainingBuffers = 0 ∧
      s2.fragments = s.fragments ++ events.map (fun e => { buf := e.buf, off := 0, len := e.len }) ∧
      s2.deleters = s.deleters ++ events.map (fun e => e.buf) ∧
      s2.delivered = s.delivered ++
        [{ frags := s.fragments ++ events.map (fun e => { buf := e.buf, off := 0, len := e.len }),
           freedBuffers := s.deleters ++ events.map (fun e => e.buf) }] ∧
      s2.signalled = s.signalled + s.fragments.length + events.length := by
  induction events with
  | nil =>
    intro s _ h1
    exact absurd h1 (by simp)
  | cons e rest ih =>
    intro s hrem _
    have hne : s.remainingBuffers ≠ 0 := by
      simp only [List.length_cons] at hrem; omega
    simp only [rxqRun, rxqComplete, if_neg hne]
    cases rest with
    | nil =>
      simp only [List.length_cons, List.length_nil] at hrem
      simp only [rxqAppend, hrem]
      refine ⟨_, rfl, rfl, rfl, ?_, ?_, ?_, ?_⟩ <;> simp
      omega
    | cons e2 rest2 =>
      have hnz : ¬ (s.remainingBuffers - 1 = 0) := by
        simp only [List.length_cons] at hrem; omega
      simp only [rxqAppend, if_neg hnz]
      obtain ⟨s2, hrun, hh, hr, hf, hd, hdel, hs⟩ :=
        ih { s with fragments := s.fragments ++ [{ buf := e.buf, off := 0, len := e.len }],
                    deleters := s.deleters ++ [e.buf],
                    remainingBuffers := s.remainingBuffers - 1 }
          (by simp only [List.length_cons] at hrem ⊢; omega) (by simp)
      refine ⟨s2, hrun, hh, hr, ?_, ?_, ?_, ?_⟩
      · simp only at hf; rw [hf]; simp
      · simp only at hd; rw [hd]; simp
      · simp only at hdel; rw [hdel]; simp
      · simp at hs; simp only [List.length_cons]
        omega

/-- C4.  When the host completes `M` posted RX buffers for one packet, with
`num_buffers = M` in the first buffer's mergeable header, the rxq delivers
exactly one packet whose fragments are `{buf_1 + header_len, len_1 -
header_len}` followed by `{buf_i, len_i}`, of total length `sum(len_i) -
header_len`, whose deleter frees exactly the `M` backing buffers, and then
signals `M` permits on the descriptor semaphore. -/
theorem claim4_rx_reassembly (s : RxqState) (first : RxEvent) (more : List RxEvent)
    (hidle : s.remainingBuffers = 0)
    (hnum : first.hdrNumBuffers = more.length + 1)
    (hlen : s.headerLen ≤ first.len) (hfit : first.len < 2 ^ 64) :
    ∃ s2, rxqRun s (first :: more) = some s2 ∧
      s2.delivered = s.delivered ++
        [{ frags := { buf := first.buf, off := s.headerLen, len := first.len - s.headerLen } ::
             more.map (fun e => { buf := e.buf, off := 0, len := e.len }),
           freedBuffers := first.buf :: more.map (fun e => e.buf) }] ∧
      (({ buf := first.buf, off := s.headerLen, len := first.len - s.headerLen } ::
          more.map (fun e => ({ buf := e.buf, off := 0, len := e.len } : RxFrag))).map
          (fun f => f.len)).sum =
        (first.len :: more.map (fun e => e.len)).sum - s.headerLen ∧
      s2.signalled = s.signalled + (more.length + 1) ∧
      s2.remainingBuffers = 0 := by
  have hnz : first.hdrNumBuffers ≠ 0 := by omega
  have hmod : (first.len + 2 ^ 64 - s.headerLen) % 2 ^ 64 = first.len - s.headerLen := by omega
  have hcomp : ((fun (f : RxFrag) => f.len) ∘ fun (e : RxEvent) =>
      ({ buf := e.buf, off := 0, len := e.len } : RxFrag)) = fun (e : RxEvent) => e.len := rfl
  have hsum : (({ buf := first.buf, off := s.headerLen, len := first.len - s.headerLen } ::
          more.map (fun e => ({ buf := e.buf, off := 0, len := e.len } : RxFrag))).map
          (fun f => f.len)).sum =
        (first.len :: more.map (fun e => e.len)).sum - s.headerLen := by
    simp only [List.map_cons, List.map_map, List.sum_cons, hcomp]
    omega
  simp only [rxqRun, rxqComplete, hidle, if_pos rfl, if_neg hnz, hmod]
  cases more with
  | nil =>
    simp only [List.length_nil, Nat.zero_add] at hnum
    simp only [rxqAppend, hnum]
    exact ⟨_, rfl, by simp, hsum, by simp, by simp⟩
  | cons e2 rest2 =>
    have hnz2 : ¬ (first.hdrNumBuffers - 1 = 0) := by
      simp only [List.length_cons] at hnum; omega
    simp only [rxqAppend, if_neg hnz2]
    obtain ⟨s2, hrun, hh, hr, hf, hd, hdel, hs⟩ :=
      rxqRun_inProgress (e2 :: rest2)
        { s with remainingBuffers := first.hdrNumBuffers - 1,
                 fragments := [{ buf := first.buf, off := s.headerLen,
                                 len := first.len - s.headerLen }],
                 deleters := [first.buf] }
        (by simp only [List.length_cons] at hnum ⊢; omega) (by simp)
    refine ⟨s2, hrun, ?_, hsum, ?_, hr⟩
    · simp only at hdel; rw [hdel]; simp
    · simp at hs; simp only [List.length_cons]
      omega

/-- C4, witness: a 4 KiB + 2 KiB mergeable receive with a 12-byte header. -/
theorem claim4_rx_reassembly_witness :
    ∃ s2, rxqRun
        { headerLen := 12, remainingBuffers := 0, fragments := [], deleters := [],
          delivered := [], signalled := 0 }
        [{ buf := 1000, len := 4096, hdrNumBuffers := 2 }, { buf := 2000, len := 2048, hdrNumBuffers := 7 }] =
        some s2 ∧
      s2.delivered = [{ frags := [{ buf := 1000, off := 12, len := 4084 },
                                  { buf := 2000, off := 0, len := 2048 }],
                        freedBuffers := [1000, 2000] }] ∧
      s2.signalled = 2 ∧ s2.remainingBuffers = 0 := by
  obtain ⟨s2, hrun, hd, _, hs, hr⟩ := claim4_rx_reassembly
    { headerLen := 12, remainingBuffers := 0, fragments := [], deleters := [],
      delivered := [], signalled := 0 }
    { buf := 1000, len := 4096, hdrNumBuffers := 2 }
    [{ buf := 2000, len := 2048, hdrNumBuffers := 7 }]
    rfl rfl (by norm_num) (by norm_num)
  exact ⟨s2, hrun, by simpa using hd, by simpa using hs, hr⟩

/-- C10, witness: a host-reported length of 5 bytes against the 12-byte
mergeable header wraps to `2^64 - 7`. -/
theorem claim10_rx_len_underflow_witness :
    ∃ s2, rxqComplete
        { headerLen := 12, remainingBuffers := 0, fragments := [], deleters := [],
          delivered := [], signalled := 0 } 500 5 1 = some s2 ∧
      s2.fragments = [{ buf := 500, off := 12, len := 5 + 2 ^ 64 - 12 }] ∧
      2 ^ 64 - 12 ≤ 5 + 2 ^ 64 - 12 :=
  (claim10_rx_len_underflow
    { headerLen := 12, remainingBuffers := 0, fragments := [], deleters := [],
      delivered := [], signalled := 0 } 500 5 1 rfl (by decide) (by norm_num) (by norm_num)).2
    (by norm_num)

/-- C3: in every state reachable by the vring operations the descriptors on
the free list together with the descriptors of the chains with an outstanding
completion account for all `N` ring descriptors (their counts sum to `N`);
and the freshly constructed ring has free head `0`, free tail `N - 1`, every
descriptor `i < N` linked to `i + 1`, the free list equal to
`[0, 1, ..., N-1]` and the available-descriptors semaphore holding `N`
permits. -/
theorem claim3_free_list_partition :
    (∀ s : Vring, Reachable s →
      ∃ fl cs, freeSeq s = some fl ∧
        chainsSeq s.descs s.size s.outstanding = some cs ∧
        fl.length + cs.flatten.length = s.size) ∧
    (∀ (n : Nat) (ei pm : Bool), 1 ≤ n →
      (vringInit n ei pm).freeHead = some 0 ∧
      (vringInit n ei pm).freeLast = some (n - 1) ∧
      (∀ i, i < n → ((vringInit n ei pm).descs i).next = i + 1) ∧
      freeSeq (vringInit n ei pm) = some (List.range n) ∧
      (vringInit n ei pm).availableDescriptors = n) := by
  constructor
  · intro s hreach
    obtain ⟨_, _, _, _, _, fl, cs, hfl, hcs, hperm⟩ := reachable_WF s hreach
    refine ⟨fl, cs, hfl, hcs, ?_⟩
    have := hperm.length_eq
    simpa using this
  · intro n ei pm hn
    refine ⟨rfl, ?_, vringInit_next n ei pm, vringInit_freeSeq n ei pm hn, ?_⟩
    · simp only [vringInit, vringSetup, vringBlank]
      rw [if_neg (by omega)]
    · simp [vringInit, vringSetup, vringBlank]

/-- C3, witness at ring size `4`. -/
theorem claim3_free_list_partition_witness :
    (∃ fl cs, freeSeq (vringInit (2 ^ 2) true false) = some fl ∧
      chainsSeq (vringInit (2 ^ 2) true false).descs
        (vringInit (2 ^ 2) true false).size
        (vringInit (2 ^ 2) true false).outstanding = some cs ∧
      fl.length + cs.flatten.length = (vringInit (2 ^ 2) true false).size) ∧
    ((vringInit 4 true false).freeHead = some 0 ∧
     (vringInit 4 true false).freeLast = some (4 - 1) ∧
     (∀ i, i < 4 → ((vringInit 4 true false).descs i).next = i + 1) ∧
     freeSeq (vringInit 4 true false) = some (List.range 4) ∧
     (vringInit 4 true false).availableDescriptors = 4) :=
  ⟨claim3_free_list_partition.1 (vringInit (2 ^ 2) true false)
      (Reachable.init 2 true false (by decide)),
   claim3_free_list_partition.2 4 true false (by decide)⟩

/-- C5: with an idle host on the interrupt-mode direct-publication path,
the i-th of successive `qp::txq::post` calls publishes exactly one descriptor
chain into avail-ring slot `avail_head + i` (first-in first-out call order);
for a packet of `K` fragments the chain has length `K + 1` (the prepended
virtio-net header buffer followed by the payload fragments, linked via
`has_next`/`next` with the last descriptor's `has_next` clear), and every
descriptor in it is read-only (`writeable = false`). -/
theorem claim5_tx_chain_fifo (s : Vring) (ps : List (Nat × Nat × List NetFragment))
    (s2 : Vring) (hwf : VringWF s) (hpm : s.pollMode = false)
    (hrun : txqPostManyIdle s ps = some s2) :
    s2.availHead = (s.availHead + ps.length) % 65536 ∧
    ∀ i (hi : i < ps.length), ∃ c : List Nat,
      c.head? = some (s2.availRing (((s.availHead + i) % 65536) &&& (s.size - 1))) ∧
      c.length = (ps.get ⟨i, hi⟩).2.2.length + 1 ∧
      IsChain s2.descs c ∧
      chainSeqGo s2.descs (s2.availRing (((s.availHead + i) % 65536) &&& (s.size - 1)))
        s.size = some c ∧
      List.Forall₂ (fun d b => (s2.descs d).paddr = b.addr ∧ (s2.descs d).len = b.len ∧
        (s2.descs d).writeable = b.writeable) c
        (txqChain (ps.get ⟨i, hi⟩).1 (ps.get ⟨i, hi⟩).2.1 (ps.get ⟨i, hi⟩).2.2) ∧
      ∀ d ∈ c, (s2.descs d).writeable = false := by
  obtain ⟨_, _, _, _, hAH, _, _, fl, m, _, _, _, _, _, _, _, hper⟩ :=
    txqPostManyIdle_spec ps s s2 hwf hpm hrun
  refine ⟨hAH, ?_⟩
  intro i hi
  obtain ⟨head, c, hslot, hhd, hcsg, hfa⟩ := hper i hi
  subst hslot
  refine ⟨c, hhd, ?_, chainSeqGo_isChain s2.descs s.size _ hcsg, hcsg, hfa, ?_⟩
  · have hle := List.Forall₂.length_eq hfa
    rw [hle]
    simp [txqChain]
  · refine forall2_txq_writeable s2.descs c _ hfa ?_
    intro b hb
    simp only [txqChain, List.mem_map] at hb
    obtain ⟨f, _, hfb⟩ := hb
    rw [← hfb]
    rfl

/-- C5, witness: two one-fragment packets posted back-to-back on a fresh
8-entry interrupt-mode ring. -/
theorem claim5_tx_chain_fifo_witness :
    (vringInit (2 ^ 3) false false).pollMode = false ∧
    ∃ s2 : Vring, txqPostManyIdle (vringInit (2 ^ 3) false false)
        [((500 : Nat), (10 : Nat), [({ base := 600, size := 100 } : NetFragment)]),
         (700, 10, [{ base := 800, size := 200 }])] = some s2 ∧
      (s2.availHead = ((vringInit (2 ^ 3) false false).availHead +
          ([((500 : Nat), (10 : Nat), [({ base := 600, size := 100 } : NetFragment)]),
            (700, 10, [{ base := 800, size := 200 }])] : List (Nat × Nat × List NetFragment)).length) % 65536 ∧
       ∀ i (hi : i < ([((500 : Nat), (10 : Nat), [({ base := 600, size := 100 } : NetFragment)]),
            (700, 10, [{ base := 800, size := 200 }])] : List (Nat × Nat × List NetFragment)).length),
         ∃ c : List Nat,
          c.head? = some (s2.availRing ((((vringInit (2 ^ 3) false false).availHead + i) % 65536) &&&
            ((vringInit (2 ^ 3) false false).size - 1))) ∧
          c.length = (([((500 : Nat), (10 : Nat), [({ base := 600, size := 100 } : NetFragment)]),
            (700, 10, [{ base := 800, size := 200 }])] : List (Nat × Nat × List NetFragment)).get ⟨i, hi⟩).2.2.length + 1 ∧
          IsChain s2.descs c ∧
          chainSeqGo s2.descs (s2.availRing ((((vringInit (2 ^ 3) false false).availHead + i) % 65536) &&&
            ((vringInit (2 ^ 3) false false).size - 1))) (vringInit (2 ^ 3) false false).size = some c ∧
          List.Forall₂ (fun d b => (s2.descs d).paddr = b.addr ∧ (s2.descs d).len = b.len ∧
            (s2.descs d).writeable = b.writeable) c
            (txqChain (([((500 : Nat), (10 : Nat), [({ base := 600, size := 100 } : NetFragment)]),
                (700, 10, [{ base := 800, size := 200 }])] : List (Nat × Nat × List NetFragment)).get ⟨i, hi⟩).1
              (([((500 : Nat), (10 : Nat), [({ base := 600, size := 100 } : NetFragment)]),
                (700, 10, [{ base := 800, size := 200 }])] : List (Nat × Nat × List NetFragment)).get ⟨i, hi⟩).2.1
              (([((500 : Nat), (10 : Nat), [({ base := 600, size := 100 } : NetFragment)]),
                (700, 10, [{ base := 800, size := 200 }])] : List (Nat × Nat × List NetFragment)).get ⟨i, hi⟩).2.2) ∧
          ∀ d ∈ c, (s2.descs d).writeable = false) := by
  refine ⟨rfl, _, rfl, ?_⟩
  exact claim5_tx_chain_fifo (vringInit (2 ^ 3) false false)
    [((500 : Nat), (10 : Nat), [({ base := 600, size := 100 } : NetFragment)]),
     (700, 10, [{ base := 800, size := 200 }])] _
    (vringInit_WF 3 false false (by decide)) rfl rfl

end VirtioNet
